import Mathlib

/-!
Verification of the dscribe repository core logic.

This file gives a shallow embedding of the two source files

  * `src/describe/descriptors/matrixdescriptor.py` (`MatrixDescriptor`)
  * `src/dscribe/descriptors/soap.py` (`SOAP`)

and proves the frozen claims about them.

Modelling conventions:

  * Machine floating point numbers are modelled as rationals `ℚ` (every
    float is a rational); quantities produced by the external numeric
    library (square roots of norms, Gaussian noise samples, eigenvalues)
    are modelled as real (`ℝ`) or complex (`ℂ`) numbers.
  * `numpy` 1D arrays are `List ℚ`, 2D arrays are `List (List ℚ)`;
    out-of-range indexing is modelled with `List.getD` and every theorem
    carries the bounds under which the source indexing is in range.
  * The RNG (`np.random.normal(mean, sigma)`) is modelled by an explicit
    stream `ε : ℕ → ℝ` of standard-normal samples: the draw with mean
    `m` and standard deviation `s` is `m + s * ε i`.
  * Mutable instance state (`self.norm_vector`) is passed explicitly:
    a function reading it takes an `Option (List ℝ)` and returns the new
    value of the field next to its result.
  * `raise ValueError(...)` is modelled with `Except String`.
-/

/-! ### Generic list helpers -/

/-- `np.argsort(xs)[::-1]`: the list of positions of `xs` ordered so that
the corresponding values are descending.  `np.argsort` sorts ascending
(ties in unspecified order; we fix merge sort) and `[::-1]` reverses. -/
def argsortDesc {α : Type} [LinearOrder α] [Inhabited α] (xs : List α) : List ℕ :=
  ((List.range xs.length).mergeSort (fun i j => decide (xs.getD i default ≤ xs.getD j default))).reverse

namespace MatrixDescriptor

/-! ### Embedding of `src/describe/descriptors/matrixdescriptor.py` -/

/-- The squared L2 norm of one matrix row, an exact rational (written
`x * x` so that the kernel can evaluate it on concrete inputs). -/
def rowNormSq (row : List ℚ) : ℚ := (row.map (fun x => x * x)).sum

/-- `np.linalg.norm(row)`: the L2 norm of one matrix row (a real number). -/
noncomputable def rowNorm (row : List ℚ) : ℝ := Real.sqrt ((rowNormSq row : ℚ) : ℝ)

/-- `np.linalg.norm(matrix, axis=1)`: the vector of row L2 norms. -/
noncomputable def normVecR (M : List (List ℚ)) : List ℝ := M.map rowNorm

/-- `matrix[p][:, p]`: the same index list applied to rows and columns. -/
def symPerm (M : List (List ℚ)) (p : List ℕ) : List (List ℚ) :=
  p.map (fun i => p.map (fun j => (M.getD i []).getD j 0))

/-- `MatrixDescriptor.sort`: `sorted_indices = np.argsort(norms)[::-1]`
followed by `matrix[sorted_indices][:, sorted_indices]`. -/
noncomputable def sort (M : List (List ℚ)) : List (List ℚ) :=
  symPerm M (argsortDesc (normVecR M))

/-- `MatrixDescriptor._get_norm_vector` result (the value stored into
`self.norm_vector`): the row L2 norms of the given matrix. -/
noncomputable def get_norm_vector (M : List (List ℚ)) : List ℝ := normVecR M

/-- `MatrixDescriptor.sort_randomly(matrix, sigma=1)`.  The
`try: len(self.norm_vector) / except:` lazy initialisation is the match
on the `Option`: when `self.norm_vector` is `None`, `len` raises and the
handler stores the row norms of the current matrix; otherwise the stored
vector is reused as is.  `np.random.normal(v, sigma)` is `v + sigma • ε`
sample-wise.  Returns the permuted matrix and the new `self.norm_vector`. -/
noncomputable def sort_randomly (state : Option (List ℝ)) (ε : ℕ → ℝ)
    (M : List (List ℚ)) (sigma : ℝ) : List (List ℚ) × Option (List ℝ) :=
  let v : List ℝ := match state with
    | some v => v
    | none => get_norm_vector M
  let noise_norm_vector : List ℝ := (List.range v.length).map (fun i => v.getD i 0 + sigma * ε i)
  let indexlist : List ℕ := argsortDesc noise_norm_vector
  (symPerm M indexlist, some v)

/-- The absolute value of one eigenvalue returned by `np.linalg.eig`,
modelled as a complex number given by its real and imaginary rational
components (`np.absolute`). -/
noncomputable def pairAbs (p : ℚ × ℚ) : ℝ := Real.sqrt (((p.1 ^ 2 + p.2 ^ 2 : ℚ) : ℝ))

/-- The complex number denoted by one eigensolver output pair: the pair
holds the real and imaginary components. -/
noncomputable def pairToC (p : ℚ × ℚ) : ℂ := ⟨(p.1 : ℝ), (p.2 : ℝ)⟩

/-- `MatrixDescriptor.get_eigenspectrum` applied to the eigenvalue list
produced by the external `np.linalg.eig`: take absolute values, argsort
them descending, and reorder the eigenvalues by that index list. -/
noncomputable def get_eigenspectrum (eigvals : List (ℚ × ℚ)) : List (ℚ × ℚ) :=
  (argsortDesc (eigvals.map pairAbs)).map (fun i => eigvals.getD i (0, 0))

/-- The input matrix as a complex square matrix over `Fin`, the object
whose eigenvalues the external `np.linalg.eig` computes. -/
noncomputable def listToMatrixC (M : List (List ℚ)) : Matrix (Fin M.length) (Fin M.length) ℂ :=
  Matrix.of (fun i j => (((M.getD i.1 []).getD j.1 0 : ℚ) : ℂ))

/-- The multiset of eigenvalues of the matrix: the roots of its complex
characteristic polynomial.  This is the mathematical content of the
`eigenspectrum` encoding: `get_eigenspectrum` returns these values sorted
by descending absolute value, a function of this multiset alone. -/
noncomputable def eigenvalueMultiset (M : List (List ℚ)) : Multiset ℂ :=
  (listToMatrixC M).charpoly.roots

/-- Descriptor configuration stored by `MatrixDescriptor.__init__`.
Note that the constructor argument `sigma` is validated but NOT stored:
the source sets only `self.n_atoms_max`, `self.permutation` (and the
`flatten` flag through the base class), so no field for it exists. -/
structure Config where
  n_atoms_max : ℕ
  permutation : String
  flatten : Bool
deriving DecidableEq

/-- The `perm_options` set literal of the source (which spells
`"eigenspectrum"` twice; set membership is unaffected). -/
def perm_options : List String := ["sorted_l2", "none", "eigenspectrum", "eigenspectrum", "random"]

/-- Python truthiness test `not sigma` on the optional float argument:
true for `None` and for a zero value. -/
def sigmaFalsy (sigma : Option ℚ) : Bool := sigma = none || sigma = some 0

/-- `MatrixDescriptor.__init__(n_atoms_max, permutation, sigma, flatten)`:
the three validity checks in source order, then the stored fields. -/
def init (n_atoms_max : ℤ) (permutation : String) (sigma : Option ℚ) (flatten : Bool) :
    Except String Config :=
  if n_atoms_max ≤ 0 then
    .error "The maximum number of atoms must be a positive number."
  else if permutation ∉ perm_options then
    .error "Unknown permutation option given."
  else if sigmaFalsy sigma ∧ permutation = "random" then
    .error "Please specify sigma as a degree of random noise."
  else
    .ok ⟨n_atoms_max.toNat, permutation, flatten⟩

/-- `MatrixDescriptor.zero_pad` on a 2D array: `np.pad` with
`[(0, n_atoms_max - n)] * 2` where `n = array.shape[0]` (the row count
is used for both axes, as in the source). -/
def zero_pad_matrix (N : ℕ) (M : List (List ℚ)) : List (List ℚ) :=
  (M.map (fun row => row ++ List.replicate (N - M.length) 0))
    ++ List.replicate (N - M.length) (List.replicate N 0)

/-- `MatrixDescriptor.zero_pad` on a 1D array (the eigenspectrum path):
`np.pad` with `[(0, n_atoms_max - n)]`. -/
def zero_pad_vector (N : ℕ) (v : List (ℚ × ℚ)) : List (ℚ × ℚ) :=
  v ++ List.replicate (N - v.length) (0, 0)

/-- The value returned by `MatrixDescriptor.describe`: a flattened real
vector, a complex eigenvalue vector (the eigenspectrum path), or an
unflattened matrix when `flatten=False`. -/
inductive Output where
  | vec : List ℚ → Output
  | cvec : List (ℚ × ℚ) → Output
  | mat : List (List ℚ) → Output
deriving DecidableEq

/-- `len(...)` of a `describe` result (for a 2D array, `len` is the row
count). -/
def Output.len : Output → ℕ
  | .vec v => v.length
  | .cvec v => v.length
  | .mat M => M.length

/-- `MatrixDescriptor.get_number_of_features`. -/
def get_number_of_features (cfg : Config) : ℕ :=
  if cfg.permutation = "eigenspectrum" then cfg.n_atoms_max else cfg.n_atoms_max ^ 2

/-- Zero padding followed by the optional flattening, as applied by the
tail of `describe` to the 2D (non-eigenspectrum) paths. -/
def finish (cfg : Config) (A : List (List ℚ)) : Output :=
  let padded := zero_pad_matrix cfg.n_atoms_max A
  if cfg.flatten then .vec padded.flatten else .mat padded

/-- `MatrixDescriptor.describe(system)`.  `self.get_matrix(system)` is
abstract in this base class (supplied by subclasses), so the embedding
takes the raw interaction matrix `M` directly; likewise `np.linalg.eig`
is the external routine `eig`.  `state` is `self.norm_vector` on entry
and is returned next to the output; `ε` is the RNG stream.  The random
branch calls `sort_randomly` with its default argument `sigma=1` exactly
as the source does (`self.sort_randomly(matrix)`). -/
noncomputable def describe (cfg : Config) (eig : List (List ℚ) → List (ℚ × ℚ))
    (state : Option (List ℝ)) (ε : ℕ → ℝ) (M : List (List ℚ)) :
    Except String (Output × Option (List ℝ)) :=
  if cfg.permutation = "none" then
    .ok (finish cfg M, state)
  else if cfg.permutation = "sorted_l2" then
    .ok (finish cfg (sort M), state)
  else if cfg.permutation = "eigenspectrum" then
    .ok (.cvec (zero_pad_vector cfg.n_atoms_max (get_eigenspectrum (eig M))), state)
  else if cfg.permutation = "random" then
    let r := sort_randomly state ε M 1
    .ok (finish cfg r.1, r.2)
  else
    .error "Invalid permutation method."

end MatrixDescriptor

namespace SOAP

/-! ### Embedding of `src/dscribe/descriptors/soap.py` -/

/-- The SOAP configuration fields used by the feature-space accounting:
`self._nmax`, `self._lmax`, `self._crossover` and `self._atomic_numbers`
(the full species set). -/
structure Config where
  nmax : ℕ
  lmax : ℕ
  crossover : Bool
  atomic_numbers : List ℕ
deriving DecidableEq

/-- `SOAP.get_number_of_element_features`:
`int((lmax + 1) * nmax * (nmax + 1) / 2)`.  The natural-number division
is exact because `nmax * (nmax + 1)` is even. -/
def get_number_of_element_features (cfg : Config) : ℕ :=
  (cfg.lmax + 1) * cfg.nmax * (cfg.nmax + 1) / 2

/-- `SOAP.get_flattened_index(i, j, n)`: the 1D index of entry `(i, j)`
of an upper triangular `n × n` matrix flattened left-to-right and
top-to-bottom, `j + i*n - i*(i+1)/2`. -/
def get_flattened_index (i j n : ℕ) : ℕ :=
  j + i * n - i * (i + 1) / 2

/-- `SOAP.get_number_of_features`:
`n_element_features * n_blocks` with `n_blocks = n*(n+1)/2` when
crossover is enabled and `n_blocks = n` otherwise. -/
def get_number_of_features (cfg : Config) : ℕ :=
  get_number_of_element_features cfg *
    (if cfg.crossover then cfg.atomic_numbers.length * (cfg.atomic_numbers.length + 1) / 2
     else cfg.atomic_numbers.length)

/-- `np.sort` on a list of atomic numbers. -/
def sortNat (l : List ℕ) : List ℕ := l.mergeSort (fun a b => decide (a ≤ b))

/-- `SOAP.get_sub_to_full_map(sub_elements, full_elements)`: sort both
element lists, then map each sorted sub position to the first position
holding the same atomic number in the sorted full list
(`np.where(full_elements_sorted == z)[0][0]`). -/
def get_sub_to_full_map (sub_elements full_elements : List ℕ) : ℕ → ℕ :=
  fun i_sub => (sortNat full_elements).indexOf ((sortNat sub_elements).getD i_sub 0)

/-- One slice assignment `output[:, start:start+width] = block` restricted
to a single row, over rows modelled as total functions on column indices. -/
def writeBlock (row : ℕ → ℚ) (start : ℕ) (block : ℕ → ℚ) (width : ℕ) : ℕ → ℚ :=
  fun c => if start ≤ c ∧ c < start + width then block (c - start) else row c

/-- The index pairs enumerated by the double loop
`for i in range(k): for j in range(k): if j >= i:` in source order. -/
def pairsUpper (k : ℕ) : List (ℕ × ℕ) :=
  (List.range k).flatMap (fun i => ((List.range k).filter (fun j => i ≤ j)).map (fun j => (i, j)))

/-- The body of `SOAP.get_full_space_output` for one row of `sub_output`
(all rows are treated identically by the slice assignments): starting
from the zero row, every upper-triangular sub-space pair `(i_sub, j_sub)`
copies its `n_elem_features`-wide block to the block position of the
corresponding full-space pair. -/
def remapRow (cfg : Config) (sub_elements : List ℕ) (subRow : ℕ → ℚ) : ℕ → ℚ :=
  let space_map := get_sub_to_full_map sub_elements cfg.atomic_numbers
  let n_elem_features := get_number_of_element_features cfg
  let n_elem_sub := sub_elements.length
  let n_elem_full := cfg.atomic_numbers.length
  (pairsUpper n_elem_sub).foldl
    (fun acc ij =>
      let m := get_flattened_index ij.1 ij.2 n_elem_sub
      let m_full := get_flattened_index (space_map ij.1) (space_map ij.2) n_elem_full
      writeBlock acc (m_full * n_elem_features) (fun t => subRow (m * n_elem_features + t))
        n_elem_features)
    (fun _ => 0)

/-- `SOAP.get_full_space_output(sub_output, sub_elements, full_elements)`,
with `sub_output` rows given as functions from column index to value:
allocate `np.zeros((n_points, n_features))` and run the double loop of
slice assignments on every row. -/
def get_full_space_output (cfg : Config) (sub_output : List (ℕ → ℚ))
    (sub_elements : List ℕ) : List (List ℚ) :=
  sub_output.map (fun row =>
    (List.range (get_number_of_features cfg)).map (remapRow cfg sub_elements row))

/-- The chunking of `SOAP.create`:
`k, m = divmod(n_samples, n_jobs)` and
`jobs = (inp[i*k + min(i, m):(i+1)*k + min(i+1, m)] for i in range(n_jobs))`. -/
def createBatchChunks {α : Type} (inp : List α) (n_jobs : ℕ) : List (List α) :=
  let k := inp.length / n_jobs
  let m := inp.length % n_jobs
  (List.range n_jobs).map (fun i =>
    (inp.drop (i * k + min i m)).take ((i + 1) * k + min (i + 1) m - (i * k + min i m)))

end SOAP

/-! ### Generic helper lemmas -/

theorem getD_map_range {β : Type} (f : ℕ → β) {c i : ℕ} (h : i < c) (d : β) :
    ((List.range c).map f).getD i d = f i := by
  rw [List.getD_eq_getElem _ _ (by simpa using h)]
  simp

/-! ### C2: the SOAP feature-count oracle -/

/-- C2: for every SOAP configuration, `get_number_of_features` is a pure
function of the configuration (it depends on the species list only
through its size `n` and touches no system) and returns
`elementFeatureCount * numBlocks` with
`elementFeatureCount = (lmax+1)*nmax*(nmax+1)/2` and
`numBlocks = n*(n+1)/2` when crossover is enabled, else `n`.  Both
divisions by two are exact. -/
theorem soap_get_number_of_features_formula (nmax lmax : ℕ) (full : List ℕ) (crossover : Bool) :
    SOAP.get_number_of_features ⟨nmax, lmax, crossover, full⟩ =
      SOAP.get_number_of_element_features ⟨nmax, lmax, crossover, full⟩ *
        (if crossover then full.length * (full.length + 1) / 2 else full.length)
    ∧ 2 * SOAP.get_number_of_element_features ⟨nmax, lmax, crossover, full⟩ =
        (lmax + 1) * nmax * (nmax + 1)
    ∧ 2 * (full.length * (full.length + 1) / 2) = full.length * (full.length + 1)
    ∧ ∀ full' : List ℕ, full'.length = full.length →
        SOAP.get_number_of_features ⟨nmax, lmax, crossover, full'⟩ =
          SOAP.get_number_of_features ⟨nmax, lmax, crossover, full⟩ := by
  refine ⟨rfl, ?_, ?_, ?_⟩
  · have h2 : 2 ∣ (lmax + 1) * nmax * (nmax + 1) := by
      rw [mul_assoc]
      exact Dvd.dvd.mul_left (even_iff_two_dvd.mp (Nat.even_mul_succ_self nmax)) _
    exact Nat.mul_div_cancel' h2
  · exact Nat.mul_div_cancel' (even_iff_two_dvd.mp (Nat.even_mul_succ_self full.length))
  · intro full' h
    simp [SOAP.get_number_of_features, SOAP.get_number_of_element_features, h]

/-! ### C8: `MatrixDescriptor.__init__` validation (corrected) -/

/-- C8 (counterexample): the claim that construction errors exactly when
the policy is unrecognized, the maximum-atoms parameter is not positive,
or the `random` policy lacks a positive sigma, is false: the source tests
`if not sigma` (Python truthiness), so a *negative* sigma passes
validation.  `init 3 "random" (some (-1)) true` succeeds although `-1`
is not positive. -/
theorem mdescriptor_init_claim_counterexample :
    ¬ (∀ (n : ℤ) (p : String) (s : Option ℚ) (f : Bool),
        (∃ cfg, MatrixDescriptor.init n p s f = .ok cfg) ↔
          (0 < n ∧ p ∈ ["none", "sorted_l2", "eigenspectrum", "random"] ∧
            (p = "random" → ∃ q, s = some q ∧ 0 < q))) := by
  intro h
  obtain ⟨q, hq, hpos⟩ :=
    ((h 3 "random" (some (-1)) true).mp ⟨⟨3, "random", true⟩, by rfl⟩).2.2 rfl
  rw [Option.some_inj] at hq
  rw [← hq] at hpos
  norm_num at hpos

/-- C8 (amended): construction fails exactly when the maximum-atoms
parameter is not positive, or the permutation policy is not one of the
recognized options, or the `random` policy is selected with a sigma that
is Python-falsy (absent or zero); in particular a negative sigma is
accepted.  For every other configuration construction succeeds. -/
theorem mdescriptor_init_validation (n : ℤ) (p : String) (s : Option ℚ) (f : Bool) :
    (∃ cfg, MatrixDescriptor.init n p s f = .ok cfg) ↔
      (0 < n ∧ p ∈ MatrixDescriptor.perm_options ∧
        ¬(MatrixDescriptor.sigmaFalsy s ∧ p = "random")) := by
  unfold MatrixDescriptor.init
  by_cases h1 : n ≤ 0
  · rw [if_pos h1]
    exact iff_of_false (by rintro ⟨cfg, hcfg⟩; cases hcfg) (by intro h; omega)
  · rw [if_neg h1]
    by_cases h2 : p ∉ MatrixDescriptor.perm_options
    · rw [if_pos h2]
      exact iff_of_false (by rintro ⟨cfg, hcfg⟩; cases hcfg) (fun h => h2 h.2.1)
    · rw [if_neg h2]
      by_cases h3 : MatrixDescriptor.sigmaFalsy s ∧ p = "random"
      · rw [if_pos h3]
        exact iff_of_false (by rintro ⟨cfg, hcfg⟩; cases hcfg) (fun h => h.2.2 h3)
      · rw [if_neg h3]
        exact iff_of_true ⟨_, rfl⟩ ⟨by omega, not_not.mp h2, h3⟩

/-! ### C9: the batch chunking of `SOAP.create` -/

theorem chunkStart_mono (k m : ℕ) {i j : ℕ} (h : i ≤ j) :
    i * k + min i m ≤ j * k + min j m :=
  Nat.add_le_add (Nat.mul_le_mul_right k h) (min_le_min h le_rfl)

theorem chunkStart_last {n c : ℕ} (hc : 1 ≤ c) :
    c * (n / c) + min c (n % c) = n := by
  have hm : n % c < c := Nat.mod_lt _ hc
  rw [min_eq_right hm.le]
  exact Nat.div_add_mod n c

theorem chunkStep (k m : ℕ) (i : ℕ) :
    (i + 1) * k + min (i + 1) m = i * k + min i m + (if i < m then k + 1 else k) := by
  have hmul : (i + 1) * k = i * k + k := Nat.succ_mul i k
  rcases lt_or_ge i m with h | h
  · rw [if_pos h, min_eq_left h, min_eq_left (by omega)]
    omega
  · rw [if_neg (by omega), min_eq_right h, min_eq_right (by omega)]
    omega

theorem chunks_flatten_take {α : Type} (inp : List α) (k m : ℕ) : ∀ c : ℕ,
    ((List.range c).map (fun i =>
      (inp.drop (i * k + min i m)).take ((i + 1) * k + min (i + 1) m - (i * k + min i m)))).flatten
      = inp.take (c * k + min c m)
  | 0 => by simp
  | c + 1 => by
    rw [List.range_succ, List.map_append, List.flatten_append,
      chunks_flatten_take inp k m c]
    simp only [List.map_cons, List.map_nil, List.flatten_cons, List.flatten_nil, List.append_nil]
    rw [← List.take_add]
    congr 1
    have h1 := chunkStart_mono k m (Nat.le_succ c)
    have hmul : (c + 1) * k = c * k + k := Nat.succ_mul c k
    simp only [Nat.succ_eq_add_one] at h1
    omega

/-- C9: for every job list and every concurrency `c ≥ 1`, the chunking of
`SOAP.create` yields exactly `c` contiguous chunks that concatenate back
to the input in order; the first `n % c` chunks have `n / c + 1` jobs and
the remaining ones `n / c`, so sizes differ by at most one; and chunk `i`
holds exactly the jobs at indices `i*(n/c) + min i (n%c) + t`, a function
of `(n, c, i)` only. -/
theorem soap_createBatchChunks_balanced {α : Type} (inp : List α) (c : ℕ) (hc : 1 ≤ c) :
    (SOAP.createBatchChunks inp c).length = c
    ∧ (SOAP.createBatchChunks inp c).flatten = inp
    ∧ (∀ i, i < c → ((SOAP.createBatchChunks inp c).getD i []).length =
        if i < inp.length % c then inp.length / c + 1 else inp.length / c)
    ∧ (∀ i j, i < c → j < c → ((SOAP.createBatchChunks inp c).getD i []).length ≤
        ((SOAP.createBatchChunks inp c).getD j []).length + 1)
    ∧ (∀ i, i < c → ∀ t d, t < ((SOAP.createBatchChunks inp c).getD i []).length →
        ((SOAP.createBatchChunks inp c).getD i []).getD t d =
          inp.getD (i * (inp.length / c) + min i (inp.length % c) + t) d) := by
  set n := inp.length with hn
  set k := n / c with hk
  set m := n % c with hm
  have hlast : c * k + min c m = n := by
    rw [hk, hm]
    exact chunkStart_last hc
  clear_value n k m
  have hlen : (SOAP.createBatchChunks inp c).length = c := by
    simp [SOAP.createBatchChunks]
  have hchunk : ∀ i, i < c → (SOAP.createBatchChunks inp c).getD i [] =
      (inp.drop (i * k + min i m)).take ((i + 1) * k + min (i + 1) m - (i * k + min i m)) := by
    intro i hi
    unfold SOAP.createBatchChunks
    rw [getD_map_range _ hi]
    rw [← hn, ← hk, ← hm]
  have hend : ∀ i, i < c → (i + 1) * k + min (i + 1) m ≤ n := by
    intro i hi
    calc (i + 1) * k + min (i + 1) m ≤ c * k + min c m := chunkStart_mono k m hi
    _ = n := hlast
  have hsize : ∀ i, i < c → ((SOAP.createBatchChunks inp c).getD i []).length =
      if i < m then k + 1 else k := by
    intro i hi
    rw [hchunk i hi, List.length_take, List.length_drop, ← hn]
    have h1 := chunkStep k m i
    have h2 := hend i hi
    have hmul : (i + 1) * k = i * k + k := Nat.succ_mul i k
    rcases lt_or_ge i m with h | h
    · rw [if_pos h] at h1 ⊢
      omega
    · rw [if_neg (by omega)] at h1 ⊢
      omega
  refine ⟨hlen, ?_, hsize, ?_, ?_⟩
  · unfold SOAP.createBatchChunks
    simp only [← hn, ← hk, ← hm]
    rw [chunks_flatten_take inp k m c, hlast, hn, List.take_length]
  · intro i j hi hj
    rw [hsize i hi, hsize j hj]
    split_ifs <;> omega
  · intro i hi t d ht
    rw [hchunk i hi]
    rw [hchunk i hi] at ht
    have htlt : t < ((inp.drop (i * k + min i m)).take
        ((i + 1) * k + min (i + 1) m - (i * k + min i m))).length := ht
    rw [List.getD_eq_getElem _ _ htlt]
    have h3 : t < n - (i * k + min i m) := by
      have := List.length_take ((i + 1) * k + min (i + 1) m - (i * k + min i m))
        (inp.drop (i * k + min i m))
      rw [List.length_drop] at this
      rw [this] at htlt
      omega
    rw [List.getElem_take, List.getElem_drop]
    rw [List.getD_eq_getElem _ _ (by omega)]

/-- Witness for C9 at a concrete input: five jobs over two workers split
into chunks of sizes 3 and 2 covering the input in order. -/
theorem soap_createBatchChunks_balanced_witness :
    (1 ≤ 2
    ∧ (SOAP.createBatchChunks [10, 20, 30, 40, 50] 2).flatten = [10, 20, 30, 40, 50])
    ∧ ((SOAP.createBatchChunks [10, 20, 30, 40, 50] 2).getD 0 []).length = 3 := by
  have h := soap_createBatchChunks_balanced [10, 20, 30, 40, 50] 2 (by decide)
  refine ⟨⟨by decide, h.2.1⟩, ?_⟩
  rw [h.2.2.1 0 (by decide)]
  decide

/-! ### Properties of `argsortDesc` -/

theorem argsortDesc_perm {α : Type} [LinearOrder α] [Inhabited α] (xs : List α) :
    (argsortDesc xs).Perm (List.range xs.length) :=
  (List.reverse_perm _).trans (List.mergeSort_perm _ _)

theorem argsortDesc_length {α : Type} [LinearOrder α] [Inhabited α] (xs : List α) :
    (argsortDesc xs).length = xs.length :=
  (argsortDesc_perm xs).length_eq.trans (List.length_range _)

theorem mem_lt_of_perm_range {p : List ℕ} {n : ℕ} (hp : p.Perm (List.range n)) {a : ℕ}
    (ha : a ∈ p) : a < n :=
  List.mem_range.mp (hp.mem_iff.mp ha)

theorem getD_mem {α : Type} {l : List α} {i : ℕ} (h : i < l.length) (d : α) :
    l.getD i d ∈ l := by
  rw [List.getD_eq_getElem _ _ h]
  exact List.getElem_mem h

theorem getD_map {α β : Type} (f : α → β) (l : List α) {i : ℕ} (h : i < l.length)
    (d : β) (d' : α) : (l.map f).getD i d = f (l.getD i d') := by
  rw [List.getD_eq_getElem _ _ (by simpa using h), List.getElem_map,
    List.getD_eq_getElem _ _ h]

theorem map_getD_range {α : Type} (l : List α) (d : α) :
    (List.range l.length).map (fun i => l.getD i d) = l := by
  apply List.ext_getElem (by simp)
  intro i h1 h2
  simp only [List.getElem_map, List.getElem_range]
  exact List.getD_eq_getElem l d h2

theorem argsortDesc_pairwise {α : Type} [LinearOrder α] [Inhabited α] (xs : List α) :
    (argsortDesc xs).Pairwise (fun i j => xs.getD j default ≤ xs.getD i default) := by
  have htrans : ∀ a b c : ℕ,
      (fun i j => decide (xs.getD i default ≤ xs.getD j default)) a b = true →
      (fun i j => decide (xs.getD i default ≤ xs.getD j default)) b c = true →
      (fun i j => decide (xs.getD i default ≤ xs.getD j default)) a c = true := by
    intro a b c h1 h2
    simp only [decide_eq_true_eq] at h1 h2 ⊢
    exact le_trans h1 h2
  have htotal : ∀ a b : ℕ,
      ((fun i j => decide (xs.getD i default ≤ xs.getD j default)) a b
        || (fun i j => decide (xs.getD i default ≤ xs.getD j default)) b a) = true := by
    intro a b
    simp only [Bool.or_eq_true, decide_eq_true_eq]
    exact le_total _ _
  have h := @List.sorted_mergeSort ℕ
    (fun i j => decide (xs.getD i default ≤ xs.getD j default)) htrans htotal
    (List.range xs.length)
  unfold argsortDesc
  rw [List.pairwise_reverse]
  exact h.imp (by intro a b hab; simpa using hab)

theorem eq_of_map_eq {α β : Type} : ∀ (l₁ l₂ : List α) (f : α → β),
    (∀ a ∈ l₁, ∀ b ∈ l₂, f a = f b → a = b) → l₁.map f = l₂.map f → l₁ = l₂
  | [], [], _, _, _ => rfl
  | [], _ :: _, _, _, h => by simp at h
  | _ :: _, [], _, _, h => by simp at h
  | a :: l₁, b :: l₂, f, hinj, h => by
    simp only [List.map_cons, List.cons.injEq] at h
    have hab : a = b := hinj a (.head _) b (.head _) h.1
    subst hab
    rw [eq_of_map_eq l₁ l₂ f (fun x hx y hy => hinj x (.tail _ hx) y (.tail _ hy)) h.2]

/-- Uniqueness of the descending argsort: any permutation of the index
range along which the values are strictly descending is THE argsort. -/
theorem argsortDesc_unique {α : Type} [LinearOrder α] [Inhabited α] (xs : List α)
    (l : List ℕ) (hp : l.Perm (List.range xs.length))
    (hs : l.Pairwise (fun i j => xs.getD j default < xs.getD i default)) :
    argsortDesc xs = l := by
  have hperm : (argsortDesc xs).Perm l := (argsortDesc_perm xs).trans hp.symm
  have hinj : ∀ a ∈ l, ∀ b ∈ l, xs.getD a default = xs.getD b default → a = b := by
    intro a ha b hb hab
    by_contra hne
    have hS : l.Pairwise (fun i j => xs.getD i default ≠ xs.getD j default) :=
      hs.imp (fun h => (ne_of_lt h).symm)
    exact List.Pairwise.forall (fun x y h => h.symm) hS ha hb hne hab
  have h1 : ((argsortDesc xs).map (fun i => xs.getD i default)).Pairwise (· ≥ ·) :=
    List.pairwise_map.mpr (argsortDesc_pairwise xs)
  have h2 : (l.map (fun i => xs.getD i default)).Pairwise (· ≥ ·) :=
    List.pairwise_map.mpr (hs.imp (fun h => le_of_lt h))
  have h3 : ((argsortDesc xs).map (fun i => xs.getD i default)).Perm
      (l.map (fun i => xs.getD i default)) := hperm.map _
  have h4 := List.eq_of_perm_of_sorted h3 h1 h2
  exact eq_of_map_eq _ _ _
    (fun a ha b hb => hinj a (hperm.mem_iff.mp ha) b hb) h4

namespace MatrixDescriptor

/-! ### Structure of the sorted-L2 encoder -/

theorem symPerm_length (M : List (List ℚ)) (p : List ℕ) :
    (symPerm M p).length = p.length := by
  simp [symPerm]

theorem symPerm_row (M : List (List ℚ)) (p : List ℕ) {a : ℕ} (h : a < p.length) :
    (symPerm M p).getD a [] = p.map (fun j => (M.getD (p.getD a 0) []).getD j 0) := by
  unfold symPerm
  exact getD_map _ _ h [] 0

theorem symPerm_row_length (M : List (List ℚ)) (p : List ℕ) {a : ℕ} (h : a < p.length) :
    ((symPerm M p).getD a []).length = p.length := by
  rw [symPerm_row M p h]
  simp

theorem symPerm_entry (M : List (List ℚ)) (p : List ℕ) {a b : ℕ}
    (ha : a < p.length) (hb : b < p.length) :
    ((symPerm M p).getD a []).getD b 0 = (M.getD (p.getD a 0) []).getD (p.getD b 0) 0 := by
  rw [symPerm_row M p ha]
  exact getD_map _ _ hb 0 0

theorem rowNormSq_nonneg (row : List ℚ) : 0 ≤ rowNormSq row := by
  apply List.sum_nonneg
  intro x hx
  simp only [List.mem_map] at hx
  obtain ⟨y, _, rfl⟩ := hx
  exact mul_self_nonneg y

theorem rowNormSq_map_perm (r : List ℚ) (p : List ℕ) (hp : p.Perm (List.range r.length)) :
    rowNormSq (p.map (fun j => r.getD j 0)) = rowNormSq r := by
  unfold rowNormSq
  have h1 := (hp.map ((fun x => x * x) ∘ (fun j => r.getD j 0))).sum_eq
  rw [List.map_map, h1, ← List.map_map, map_getD_range r 0]

theorem rowNormSq_symPerm_row (M : List (List ℚ)) (p : List ℕ)
    (hp : p.Perm (List.range M.length)) (hsq : ∀ row ∈ M, row.length = M.length)
    {a : ℕ} (ha : a < p.length) :
    rowNormSq ((symPerm M p).getD a []) = rowNormSq (M.getD (p.getD a 0) []) := by
  rw [symPerm_row M p ha]
  have hlt : p.getD a 0 < M.length := mem_lt_of_perm_range hp (getD_mem ha 0)
  have hrow : (M.getD (p.getD a 0) []).length = M.length := hsq _ (getD_mem hlt [])
  rw [← hrow] at hp
  exact rowNormSq_map_perm _ p hp

theorem rowNorm_eq_sqrt (row : List ℚ) :
    rowNorm row = Real.sqrt ((rowNormSq row : ℚ) : ℝ) := rfl

theorem rowNorm_le_iff (a b : List ℚ) :
    rowNorm a ≤ rowNorm b ↔ rowNormSq a ≤ rowNormSq b := by
  rw [rowNorm_eq_sqrt, rowNorm_eq_sqrt,
    Real.sqrt_le_sqrt_iff (by exact_mod_cast rowNormSq_nonneg b)]
  exact_mod_cast Iff.rfl

/-- Sorting the rows by the real L2 norm and by the exact rational
squared norm produce the same index list: the square root is monotone,
so `np.argsort` performs exactly the same comparisons. -/
theorem argsortDesc_normVecR (M : List (List ℚ)) :
    argsortDesc (normVecR M) = argsortDesc (M.map rowNormSq) := by
  unfold argsortDesc
  have hlen : (normVecR M).length = (M.map rowNormSq).length := by simp [normVecR]
  rw [hlen]
  congr 1
  congr 1
  funext i j
  have hval : ∀ t : ℕ, (normVecR M).getD t default
      = Real.sqrt (((M.map rowNormSq).getD t default : ℚ) : ℝ) := by
    intro t
    by_cases ht : t < M.length
    · show (M.map rowNorm).getD t default = _
      rw [getD_map _ _ ht default [], getD_map _ _ ht default []]
      rfl
    · rw [List.getD_eq_default _ _ (by simp [normVecR]; omega),
        List.getD_eq_default _ _ (by simp; omega)]
      show (0 : ℝ) = Real.sqrt (((0 : ℚ) : ℝ))
      simp
  have hnn : ∀ t : ℕ, (0 : ℚ) ≤ (M.map rowNormSq).getD t default := by
    intro t
    by_cases ht : t < M.length
    · rw [getD_map _ _ ht default []]
      exact rowNormSq_nonneg _
    · rw [List.getD_eq_default _ _ (by simp; omega)]
      exact le_refl 0
  apply decide_eq_decide.mpr
  rw [hval i, hval j, Real.sqrt_le_sqrt_iff (by exact_mod_cast hnn j)]
  exact_mod_cast Iff.rfl

/-- C5: for every square matrix, the `sorted_l2` encoding is the input
matrix with one single permutation applied simultaneously to its rows
and columns, and that permutation lists the rows in descending L2-norm
order; consequently each row of the result has L2 norm at least that of
the next row. -/
theorem sort_is_canonical_symmetric_permutation (M : List (List ℚ))
    (hsq : ∀ row ∈ M, row.length = M.length) :
    ∃ p : List ℕ, p.Perm (List.range M.length)
      ∧ sort M = symPerm M p
      ∧ p.Pairwise (fun i j => rowNorm (M.getD j []) ≤ rowNorm (M.getD i []))
      ∧ ∀ i, i + 1 < M.length →
          rowNorm ((sort M).getD (i + 1) []) ≤ rowNorm ((sort M).getD i []) := by
  have hplen : (argsortDesc (normVecR M)).length = M.length := by
    rw [argsortDesc_length]
    simp [normVecR]
  have hperm : (argsortDesc (normVecR M)).Perm (List.range M.length) := by
    have := argsortDesc_perm (normVecR M)
    simpa [normVecR] using this
  have hpw : (argsortDesc (normVecR M)).Pairwise
      (fun i j => rowNorm (M.getD j []) ≤ rowNorm (M.getD i [])) := by
    refine (argsortDesc_pairwise (normVecR M)).imp_of_mem ?_
    intro i j hi hj hle
    have hi' : i < M.length := mem_lt_of_perm_range hperm hi
    have hj' : j < M.length := mem_lt_of_perm_range hperm hj
    show rowNorm (M.getD j []) ≤ rowNorm (M.getD i [])
    have e1 : (normVecR M).getD i default = rowNorm (M.getD i []) := getD_map _ _ hi' default []
    have e2 : (normVecR M).getD j default = rowNorm (M.getD j []) := getD_map _ _ hj' default []
    rw [e1, e2] at hle
    exact hle
  refine ⟨argsortDesc (normVecR M), hperm, rfl, hpw, ?_⟩
  intro i hilt
  set p := argsortDesc (normVecR M) with hpdef
  have hi : i < p.length := by omega
  have hi1 : i + 1 < p.length := by omega
  have hnorm : ∀ a, a < p.length →
      rowNorm ((sort M).getD a []) = rowNorm (M.getD (p.getD a 0) []) := by
    intro a ha
    show rowNorm ((symPerm M p).getD a []) = _
    rw [rowNorm_eq_sqrt, rowNorm_eq_sqrt, rowNormSq_symPerm_row M p hperm hsq ha]
  rw [hnorm i hi, hnorm (i + 1) hi1]
  have := List.pairwise_iff_getElem.mp hpw i (i + 1) hi hi1 (by omega)
  rw [List.getD_eq_getElem _ _ hi, List.getD_eq_getElem _ _ hi1]
  exact this

/-- Witness for C5 on a concrete 2×2 matrix with distinct row norms. -/
theorem sort_is_canonical_symmetric_permutation_witness :
    ∃ p : List ℕ, p.Perm (List.range ([[1, 0], [0, 2]] : List (List ℚ)).length)
      ∧ sort [[1, 0], [0, 2]] = symPerm [[1, 0], [0, 2]] p
      ∧ p.Pairwise (fun i j => rowNorm (([[1, 0], [0, 2]] : List (List ℚ)).getD j [])
          ≤ rowNorm (([[1, 0], [0, 2]] : List (List ℚ)).getD i []))
      ∧ ∀ i, i + 1 < ([[1, 0], [0, 2]] : List (List ℚ)).length →
          rowNorm ((sort [[1, 0], [0, 2]]).getD (i + 1) [])
            ≤ rowNorm ((sort [[1, 0], [0, 2]]).getD i []) :=
  sort_is_canonical_symmetric_permutation [[1, 0], [0, 2]] (by decide)

end MatrixDescriptor

theorem nodup_getD_inj {α : Type} {l : List α} (h : l.Nodup) {a b : ℕ} (d : α)
    (ha : a < l.length) (hb : b < l.length) (heq : l.getD a d = l.getD b d) : a = b := by
  rw [List.getD_eq_getElem _ _ ha, List.getD_eq_getElem _ _ hb] at heq
  exact (h.getElem_inj_iff).mp heq

theorem argsortDesc_pair_lt {α : Type} [LinearOrder α] [Inhabited α] {a b : α} (h : a < b) :
    argsortDesc [a, b] = [1, 0] := by
  apply argsortDesc_unique
  · show ([1, 0] : List ℕ).Perm (List.range 2)
    decide
  · refine List.Pairwise.cons ?_ (List.pairwise_singleton _ _)
    intro j hj
    rw [List.mem_singleton] at hj
    subst hj
    simpa using h

theorem argsortDesc_pair_gt {α : Type} [LinearOrder α] [Inhabited α] {a b : α} (h : b < a) :
    argsortDesc [a, b] = [0, 1] := by
  apply argsortDesc_unique
  · show ([0, 1] : List ℕ).Perm (List.range 2)
    decide
  · refine List.Pairwise.cons ?_ (List.pairwise_singleton _ _)
    intro j hj
    rw [List.mem_singleton] at hj
    subst hj
    simpa using h

namespace MatrixDescriptor

/-! ### C6: the cached norm vector of the noisy-sort policy -/

/-- C6: the `random` policy's cached norm vector is computed exactly once.
A call finding the cache set (`some v`) returns it unchanged and draws its
noisy permutation around `v`; a call finding it unset stores the row norms
of the matrix it was given; hence after a first call on `M`, every later
call—even on a different matrix `M2`—permutes `M2` by noise around the
row norms of the FIRST matrix `M`. -/
theorem sort_randomly_cache_once (v : List ℝ) (ε ε2 : ℕ → ℝ) (M M2 : List (List ℚ))
    (sigma sigma2 : ℝ) :
    (sort_randomly (some v) ε M sigma).2 = some v
    ∧ (sort_randomly none ε M sigma).2 = some (get_norm_vector M)
    ∧ (sort_randomly (some v) ε M sigma).1 =
        symPerm M (argsortDesc ((List.range v.length).map (fun i => v.getD i 0 + sigma * ε i)))
    ∧ (sort_randomly ((sort_randomly none ε M sigma).2) ε2 M2 sigma2).1 =
        symPerm M2 (argsortDesc ((List.range (get_norm_vector M).length).map
          (fun i => (get_norm_vector M).getD i 0 + sigma2 * ε2 i))) :=
  ⟨rfl, rfl, rfl, rfl⟩

/-! ### C7: the configured sigma is never used by the noisy sort -/

/-- C7 (code bug): `__init__` validates the `sigma` argument for the
`random` policy but never stores it, and `describe` calls
`self.sort_randomly(matrix)` which falls back to the default argument
`sigma=1`.  Consequently (i) descriptors constructed with `sigma=5` and
`sigma=1` are identical objects, (ii) `describe` always draws noise with
standard deviation 1, and (iii) the noise scale matters: with cached
norms `[0, 3]` and noise sample `(2, 0)`, `sigma=1` noisy norms `[2, 3]`
sort to the swapped matrix while the configured `sigma=5` would give
noisy norms `[10, 3]` and leave the matrix unchanged. -/
theorem describe_random_ignores_configured_sigma :
    init 2 "random" (some 5) true = init 2 "random" (some 1) true
    ∧ (∀ eig state ε M, describe ⟨2, "random", true⟩ eig state ε M =
        .ok (finish ⟨2, "random", true⟩ (sort_randomly state ε M 1).1,
          (sort_randomly state ε M 1).2))
    ∧ (sort_randomly (some [0, 3]) (fun i => if i = 0 then 2 else 0) [[0, 0], [1, 0]] 1).1
        = [[0, 1], [0, 0]]
    ∧ (sort_randomly (some [0, 3]) (fun i => if i = 0 then 2 else 0) [[0, 0], [1, 0]] 5).1
        = [[0, 0], [1, 0]] := by
  have h1 : ((List.range (([0, 3] : List ℝ)).length).map
      (fun i => ([0, 3] : List ℝ).getD i 0 + 1 * (if i = 0 then (2 : ℝ) else 0))) = [2, 3] := by
    norm_num [List.range_succ]
  have h5 : ((List.range (([0, 3] : List ℝ)).length).map
      (fun i => ([0, 3] : List ℝ).getD i 0 + 5 * (if i = 0 then (2 : ℝ) else 0))) = [10, 3] := by
    norm_num [List.range_succ]
  have ha1 : argsortDesc ([2, 3] : List ℝ) = [1, 0] := argsortDesc_pair_lt (by norm_num)
  have ha5 : argsortDesc ([10, 3] : List ℝ) = [0, 1] := argsortDesc_pair_gt (by norm_num)
  refine ⟨rfl, fun eig state ε M => rfl, ?_, ?_⟩
  · show symPerm [[0, 0], [1, 0]] (argsortDesc ((List.range (([0, 3] : List ℝ)).length).map
        (fun i => ([0, 3] : List ℝ).getD i 0 + 1 * (if i = 0 then (2 : ℝ) else 0))))
      = [[0, 1], [0, 0]]
    rw [h1, ha1]
    decide
  · show symPerm [[0, 0], [1, 0]] (argsortDesc ((List.range (([0, 3] : List ℝ)).length).map
        (fun i => ([0, 3] : List ℝ).getD i 0 + 5 * (if i = 0 then (2 : ℝ) else 0))))
      = [[0, 0], [1, 0]]
    rw [h5, ha5]
    decide

end MatrixDescriptor

namespace MatrixDescriptor

/-! ### C4: permutation invariance of the encoder -/

theorem symPerm_mem_row_length (M : List (List ℚ)) (q : List ℕ) :
    ∀ row ∈ symPerm M q, row.length = (symPerm M q).length := by
  intro row hrow
  unfold symPerm at hrow ⊢
  simp only [List.mem_map] at hrow
  obtain ⟨i, _, rfl⟩ := hrow
  simp

theorem symPerm_comp (M : List (List ℚ)) (q p : List ℕ) (hb : ∀ a ∈ p, a < q.length) :
    symPerm (symPerm M q) p = symPerm M (p.map (fun a => q.getD a 0)) := by
  unfold symPerm
  simp only [List.map_map, Function.comp]
  apply List.map_congr_left
  intro a ha
  apply List.map_congr_left
  intro j hj
  show ((symPerm M q).getD a []).getD j 0 = (M.getD (q.getD a 0) []).getD (q.getD j 0) 0
  exact symPerm_entry M q (hb a ha) (hb j hj)

theorem pairToC_injective : Function.Injective pairToC := by
  intro a b h
  have hre : ((a.1 : ℝ)) = (b.1 : ℝ) := congrArg Complex.re h
  have him : ((a.2 : ℝ)) = (b.2 : ℝ) := congrArg Complex.im h
  exact Prod.ext (by exact_mod_cast hre) (by exact_mod_cast him)

/-- The eigenspectrum encoding is a permutation of the eigensolver's
output list. -/
theorem get_eigenspectrum_perm (e : List (ℚ × ℚ)) : (get_eigenspectrum e).Perm e := by
  unfold get_eigenspectrum
  have hp := argsortDesc_perm (e.map pairAbs)
  rw [List.length_map] at hp
  have h1 := hp.map (fun i => e.getD i (0, 0))
  rwa [map_getD_range e (0, 0)] at h1

/-- The eigenspectrum encoding is weakly descending in absolute value. -/
theorem get_eigenspectrum_sorted (e : List (ℚ × ℚ)) :
    (get_eigenspectrum e).Pairwise (fun x y => pairAbs y ≤ pairAbs x) := by
  unfold get_eigenspectrum
  rw [List.pairwise_map]
  have hp := argsortDesc_perm (e.map pairAbs)
  rw [List.length_map] at hp
  refine (argsortDesc_pairwise (e.map pairAbs)).imp_of_mem ?_
  intro i j hi hj hle
  have hi' : i < e.length := mem_lt_of_perm_range hp hi
  have hj' : j < e.length := mem_lt_of_perm_range hp hj
  rwa [getD_map pairAbs e hj' default (0, 0), getD_map pairAbs e hi' default (0, 0)] at hle

theorem pairAbs_inj_of_nodup {e : List (ℚ × ℚ)} (hnd : (e.map pairAbs).Nodup) :
    ∀ a ∈ e, ∀ b ∈ e, pairAbs a = pairAbs b → a = b := by
  intro a ha b hb hab
  by_cases heq : a = b
  · exact heq
  · have hS : e.Pairwise (fun x y => pairAbs x ≠ pairAbs y) := by
      rw [← List.pairwise_map]
      exact hnd
    exact absurd hab (List.Pairwise.forall (fun x y h => h.symm) hS ha hb heq)

/-- When the eigenvalue absolute values are pairwise distinct, the
eigenspectrum encoding depends only on the multiset of eigenvalues: any
two eigensolver output orders encode to the same value sequence. -/
theorem get_eigenspectrum_perm_invariant (e e' : List (ℚ × ℚ)) (hp : e.Perm e')
    (hnd : (e.map pairAbs).Nodup) :
    get_eigenspectrum e = get_eigenspectrum e' := by
  have h1 := get_eigenspectrum_perm e
  have h2 := get_eigenspectrum_perm e'
  have hout : (get_eigenspectrum e).Perm (get_eigenspectrum e') := (h1.trans hp).trans h2.symm
  have hinj := pairAbs_inj_of_nodup hnd
  have hs1 : ((get_eigenspectrum e).map pairAbs).Pairwise (· ≥ ·) :=
    List.pairwise_map.mpr ((get_eigenspectrum_sorted e).imp (fun h => h))
  have hs2 : ((get_eigenspectrum e').map pairAbs).Pairwise (· ≥ ·) :=
    List.pairwise_map.mpr ((get_eigenspectrum_sorted e').imp (fun h => h))
  have hmapeq := List.eq_of_perm_of_sorted (hout.map pairAbs) hs1 hs2
  refine eq_of_map_eq _ _ pairAbs ?_ hmapeq
  intro a ha b hb hab
  exact hinj a (h1.mem_iff.mp ha) b (hp.mem_iff.mpr (h2.mem_iff.mp hb)) hab

/-- C4 (amended): for every square matrix with pairwise distinct row L2
norms (equivalently, distinct squared norms) and every permutation of
its index range, encoding the symmetrically permuted matrix
(`(P M Pᵀ)[a][b] = M[q[a]][q[b]]`) under `sorted_l2` returns exactly the
encoding of the original matrix; the eigenvalue multiset is unchanged,
so the `eigenspectrum` encodings agree up to the ordering of eigenvalues
of equal absolute value; and whenever the eigenvalue absolute values are
pairwise distinct, any valid eigensolver outputs for the two matrices
are encoded by `get_eigenspectrum` to exactly the same value sequence.
(Without that distinctness the sequence claim fails; see the
counterexample below.) -/
theorem encode_invariant_under_symmetric_permutation (M : List (List ℚ)) (q : List ℕ)
    (hsq : ∀ row ∈ M, row.length = M.length)
    (hq : q.Perm (List.range M.length))
    (hdist : (M.map rowNormSq).Nodup) :
    sort (symPerm M q) = sort M
    ∧ eigenvalueMultiset (symPerm M q) = eigenvalueMultiset M
    ∧ (∀ e1 e2 : List (ℚ × ℚ),
        (↑(e1.map pairToC) : Multiset ℂ) = eigenvalueMultiset M →
        (↑(e2.map pairToC) : Multiset ℂ) = eigenvalueMultiset (symPerm M q) →
        (e1.map pairAbs).Nodup →
        get_eigenspectrum e2 = get_eigenspectrum e1) := by
  have hqlen : q.length = M.length := hq.length_eq.trans (List.length_range _)
  have hlen' : (symPerm M q).length = q.length := symPerm_length M q
  have hkey : ∀ a : ℕ, a < M.length →
      ((symPerm M q).map rowNormSq).getD a default = (M.map rowNormSq).getD (q.getD a 0) default := by
    intro a ha
    have ha' : a < (symPerm M q).length := by omega
    have hqa : q.getD a 0 < M.length := mem_lt_of_perm_range hq (getD_mem (by omega) 0)
    rw [getD_map _ _ ha' default [], getD_map _ _ hqa default []]
    exact rowNormSq_symPerm_row M q hq hsq (by omega)
  have hinj : ∀ a, a < M.length → ∀ b, b < M.length →
      (M.map rowNormSq).getD a default = (M.map rowNormSq).getD b default → a = b := by
    intro a ha b hb hab
    have ha' : a < (M.map rowNormSq).length := by simpa using ha
    have hb' : b < (M.map rowNormSq).length := by simpa using hb
    rw [List.getD_eq_getElem _ _ ha', List.getD_eq_getElem _ _ hb'] at hab
    exact (hdist.getElem_inj_iff).mp hab
  -- the argsort of the permuted matrix, pushed through q, is the argsort of M
  set p := argsortDesc ((symPerm M q).map rowNormSq) with hp_def
  have hp_perm : p.Perm (List.range M.length) := by
    have := argsortDesc_perm ((symPerm M q).map rowNormSq)
    simpa [hlen', hqlen] using this
  have hp_mem : ∀ a ∈ p, a < M.length := fun a ha => mem_lt_of_perm_range hp_perm ha
  set r := p.map (fun a => q.getD a 0) with hr_def
  have hr_perm : r.Perm (List.range M.length) := by
    have h1 : r.Perm ((List.range M.length).map (fun a => q.getD a 0)) := hp_perm.map _
    have h2 : (List.range M.length).map (fun a => q.getD a 0) = q := by
      rw [← hqlen]
      exact map_getD_range q 0
    rw [h2] at h1
    exact h1.trans hq
  have hr_nodup : r.Nodup := (hr_perm.nodup_iff).mpr (List.nodup_range _)
  have hweak : p.Pairwise (fun i j =>
      (M.map rowNormSq).getD (q.getD j 0) default ≤ (M.map rowNormSq).getD (q.getD i 0) default) := by
    refine (argsortDesc_pairwise ((symPerm M q).map rowNormSq)).imp_of_mem ?_
    intro i j hi hj hle
    rwa [hkey i (hp_mem i hi), hkey j (hp_mem j hj)] at hle
  have hweak_r : r.Pairwise (fun x y =>
      (M.map rowNormSq).getD y default ≤ (M.map rowNormSq).getD x default) :=
    List.pairwise_map.mpr hweak
  have hstrict : r.Pairwise (fun x y =>
      (M.map rowNormSq).getD y default < (M.map rowNormSq).getD x default) := by
    refine (hweak_r.and hr_nodup).imp_of_mem ?_
    intro x y hx hy hxy
    refine lt_of_le_of_ne hxy.1 ?_
    intro heq
    exact hxy.2 (hinj y (mem_lt_of_perm_range hr_perm hy) x (mem_lt_of_perm_range hr_perm hx) heq).symm
  have hr : argsortDesc (M.map rowNormSq) = r := by
    apply argsortDesc_unique
    · simpa using hr_perm
    · exact hstrict
  have heig : eigenvalueMultiset (symPerm M q) = eigenvalueMultiset M := by
    unfold eigenvalueMultiset
    have hb : ∀ a : ℕ, a < (symPerm M q).length → q.getD a 0 < M.length := by
      intro a ha
      exact mem_lt_of_perm_range hq (getD_mem (by omega) 0)
    have hqnodup : q.Nodup := (hq.nodup_iff).mpr (List.nodup_range _)
    have hinjf : Function.Injective
        (fun a : Fin (symPerm M q).length => (⟨q.getD a.1 0, hb a.1 a.2⟩ : Fin M.length)) := by
      intro a b hab
      have h1 : q.getD a.1 0 = q.getD b.1 0 := congrArg Fin.val hab
      exact Fin.ext (nodup_getD_inj hqnodup 0 (by omega) (by omega) h1)
    have hcard : Fintype.card (Fin (symPerm M q).length) = Fintype.card (Fin M.length) := by
      simp [hlen', hqlen]
    have hbij := (Fintype.bijective_iff_injective_and_card _).mpr ⟨hinjf, hcard⟩
    set e := Equiv.ofBijective _ hbij with he_def
    have hmat : listToMatrixC (symPerm M q) = (listToMatrixC M).submatrix e e := by
      ext i j
      show ((((symPerm M q).getD i.1 []).getD j.1 0 : ℚ) : ℂ) = _
      rw [symPerm_entry M q (by omega) (by omega)]
      rfl
    rw [hmat]
    have hre : (listToMatrixC M).submatrix ⇑e ⇑e =
        (Matrix.reindex e.symm e.symm) (listToMatrixC M) := by
      rw [Matrix.reindex_apply, Equiv.symm_symm]
    rw [hre, Matrix.charpoly_reindex]
  refine ⟨?_, heig, ?_⟩
  · show symPerm (symPerm M q) (argsortDesc (normVecR (symPerm M q))) = _
    rw [argsortDesc_normVecR (symPerm M q), ← hp_def]
    rw [symPerm_comp M q p (fun a ha => by rw [hqlen]; exact hp_mem a ha)]
    show _ = symPerm M (argsortDesc (normVecR M))
    rw [argsortDesc_normVecR M, hr, hr_def]
  · intro e1 e2 h1 h2 hnd_abs
    have hmeq : (↑(e1.map pairToC) : Multiset ℂ) = (↑(e2.map pairToC) : Multiset ℂ) := by
      rw [h1, h2, heig]
    have hcoe : Multiset.map pairToC (↑e1 : Multiset (ℚ × ℚ))
        = Multiset.map pairToC (↑e2 : Multiset (ℚ × ℚ)) := by
      rw [Multiset.map_coe, Multiset.map_coe]
      exact hmeq
    have hperm12 : e1.Perm e2 :=
      Multiset.coe_eq_coe.mp (Multiset.map_injective pairToC_injective hcoe)
    exact (get_eigenspectrum_perm_invariant e1 e2 hperm12 hnd_abs).symm

/-- Witness for C4: the transposition `[1, 0]` applied to a diagonal
matrix with distinct row norms. -/
theorem encode_invariant_under_symmetric_permutation_witness :
    sort (symPerm [[1, 0], [0, 2]] [1, 0]) = sort [[1, 0], [0, 2]]
    ∧ eigenvalueMultiset (symPerm [[1, 0], [0, 2]] [1, 0]) =
        eigenvalueMultiset [[1, 0], [0, 2]] :=
  ⟨(encode_invariant_under_symmetric_permutation [[1, 0], [0, 2]] [1, 0]
      (by decide) (by decide) (by norm_num [rowNormSq, List.nodup_cons])).1,
   (encode_invariant_under_symmetric_permutation [[1, 0], [0, 2]] [1, 0]
      (by decide) (by decide) (by norm_num [rowNormSq, List.nodup_cons])).2.1⟩

end MatrixDescriptor

namespace MatrixDescriptor

/-! ### C3: output length equals the feature count -/

theorem flatten_length_const {α : Type} (L : List (List α)) (w : ℕ)
    (h : ∀ row ∈ L, row.length = w) : L.flatten.length = L.length * w := by
  induction L with
  | nil => simp
  | cons a l ih =>
    simp only [List.flatten_cons, List.length_append, List.length_cons]
    rw [h a (.head _), ih (fun r hr => h r (.tail _ hr))]
    ring

theorem zero_pad_matrix_shape (N : ℕ) (M : List (List ℚ))
    (hsq : ∀ row ∈ M, row.length = M.length) (hn : M.length ≤ N) :
    (zero_pad_matrix N M).length = N ∧ ∀ row ∈ zero_pad_matrix N M, row.length = N := by
  constructor
  · simp only [zero_pad_matrix, List.length_append, List.length_map, List.length_replicate]
    omega
  · intro row hrow
    unfold zero_pad_matrix at hrow
    rw [List.mem_append] at hrow
    rcases hrow with h | h
    · simp only [List.mem_map] at h
      obtain ⟨r, hr, rfl⟩ := h
      simp only [List.length_append, List.length_replicate, hsq r hr]
      omega
    · rw [List.eq_of_mem_replicate h]
      simp

/-- C3: `get_number_of_features` returns `n_atoms_max` for the
`eigenspectrum` policy and `n_atoms_max ^ 2` for every other policy, and
for every square matrix of size at most `n_atoms_max` (with a matching or
unset norm cache and the external eigensolver returning one eigenvalue
per row) `describe` succeeds and its output length equals
`get_number_of_features`. -/
theorem describe_length_matches_features (cfg : Config)
    (eig : List (List ℚ) → List (ℚ × ℚ)) (state : Option (List ℝ)) (ε : ℕ → ℝ)
    (M : List (List ℚ))
    (hperm : cfg.permutation ∈ perm_options)
    (hflat : cfg.flatten = true)
    (hsq : ∀ row ∈ M, row.length = M.length)
    (hn : M.length ≤ cfg.n_atoms_max)
    (hstate : state = none ∨ ∃ v, state = some v ∧ v.length = M.length)
    (heig : ∀ A, (eig A).length = A.length) :
    get_number_of_features cfg =
      (if cfg.permutation = "eigenspectrum" then cfg.n_atoms_max else cfg.n_atoms_max ^ 2)
    ∧ ∃ out st, describe cfg eig state ε M = .ok (out, st)
        ∧ out.len = get_number_of_features cfg := by
  have hfin : ∀ A : List (List ℚ), A.length ≤ cfg.n_atoms_max →
      (∀ row ∈ A, row.length = A.length) →
      (finish cfg A).len = cfg.n_atoms_max ^ 2 := by
    intro A hA hsqA
    obtain ⟨h1, h2⟩ := zero_pad_matrix_shape cfg.n_atoms_max A hsqA hA
    unfold finish
    rw [hflat]
    show (zero_pad_matrix cfg.n_atoms_max A).flatten.length = _
    rw [flatten_length_const _ cfg.n_atoms_max h2, h1, sq]
  have hsym : ∀ plist : List ℕ, plist.length = M.length →
      (finish cfg (symPerm M plist)).len = cfg.n_atoms_max ^ 2 := by
    intro plist hpl
    apply hfin
    · rw [symPerm_length, hpl]
      exact hn
    · exact symPerm_mem_row_length M plist
  refine ⟨rfl, ?_⟩
  simp only [perm_options, List.mem_cons, List.not_mem_nil, or_false] at hperm
  rcases hperm with h | h | h | h | h
  · -- sorted_l2
    refine ⟨finish cfg (sort M), state, ?_, ?_⟩
    · unfold describe
      rw [h]
      rfl
    · have : (argsortDesc (normVecR M)).length = M.length := by
        rw [argsortDesc_length]
        simp [normVecR]
      rw [get_number_of_features, h, if_neg (by decide)]
      exact hsym _ this
  · -- none
    refine ⟨finish cfg M, state, ?_, ?_⟩
    · unfold describe
      rw [h]
      rfl
    · rw [get_number_of_features, h, if_neg (by decide)]
      exact hfin M hn hsq
  · -- eigenspectrum
    refine ⟨.cvec (zero_pad_vector cfg.n_atoms_max (get_eigenspectrum (eig M))), state, ?_, ?_⟩
    · unfold describe
      rw [h]
      rfl
    · have hlen : (get_eigenspectrum (eig M)).length = M.length := by
        unfold get_eigenspectrum
        rw [List.length_map, argsortDesc_length, List.length_map, heig]
      show (zero_pad_vector cfg.n_atoms_max (get_eigenspectrum (eig M))).length = _
      unfold zero_pad_vector
      rw [List.length_append, List.length_replicate, hlen, get_number_of_features, h,
        if_pos rfl]
      omega
  · -- the duplicated "eigenspectrum" literal of the source set
    refine ⟨.cvec (zero_pad_vector cfg.n_atoms_max (get_eigenspectrum (eig M))), state, ?_, ?_⟩
    · unfold describe
      rw [h]
      rfl
    · have hlen : (get_eigenspectrum (eig M)).length = M.length := by
        unfold get_eigenspectrum
        rw [List.length_map, argsortDesc_length, List.length_map, heig]
      show (zero_pad_vector cfg.n_atoms_max (get_eigenspectrum (eig M))).length = _
      unfold zero_pad_vector
      rw [List.length_append, List.length_replicate, hlen, get_number_of_features, h,
        if_pos rfl]
      omega
  · -- random
    rcases hstate with hst | ⟨v, hst, hvlen⟩
    · subst hst
      refine ⟨finish cfg (sort_randomly none ε M 1).1, (sort_randomly none ε M 1).2, ?_, ?_⟩
      · unfold describe
        rw [h]
        rfl
      · rw [get_number_of_features, h, if_neg (by decide)]
        apply hsym
      
        rw [argsortDesc_length, List.length_map, List.length_range]
        show (get_norm_vector M).length = M.length
        simp [get_norm_vector, normVecR]
    · subst hst
      refine ⟨finish cfg (sort_randomly (some v) ε M 1).1, (sort_randomly (some v) ε M 1).2, ?_, ?_⟩
      · unfold describe
        rw [h]
        rfl
      · rw [get_number_of_features, h, if_neg (by decide)]
        apply hsym
        rw [argsortDesc_length, List.length_map, List.length_range]
        exact hvlen

/-- Witness for C3: a 2×2 matrix under the `sorted_l2` policy with
`n_atoms_max = 3`; the output is the flattened padded 3×3 matrix with 9
entries, matching `get_number_of_features`. -/
theorem describe_length_matches_features_witness :
    ∃ out st, describe ⟨3, "sorted_l2", true⟩ (fun A => A.map (fun _ => (0, 0)))
        none (fun _ => 0) [[1, 0], [0, 2]] = .ok (out, st)
      ∧ out.len = get_number_of_features ⟨3, "sorted_l2", true⟩ :=
  (describe_length_matches_features ⟨3, "sorted_l2", true⟩ _ _ _ _ (by decide) rfl
    (by decide) (by decide) (Or.inl rfl) (fun A => by simp)).2

end MatrixDescriptor

namespace SOAP

/-! ### Arithmetic of the upper-triangular flattened index -/

theorem two_mul_tri (i : ℕ) : 2 * (i * (i + 1) / 2) = i * (i + 1) :=
  Nat.mul_div_cancel' (even_iff_two_dvd.mp (Nat.even_mul_succ_self i))

theorem tri_succ (i : ℕ) : (i + 1) * (i + 2) / 2 = i * (i + 1) / 2 + (i + 1) := by
  have h : (i + 1) * (i + 2) = i * (i + 1) + (i + 1) * 2 := by ring
  rw [h, Nat.add_mul_div_right _ _ (by norm_num)]

theorem tri_le_mul {i n : ℕ} (h : i < n) : i * (i + 1) / 2 ≤ i * n :=
  le_trans (Nat.div_le_self _ _) (Nat.mul_le_mul_left i h)

theorem get_flattened_index_add (i j n : ℕ) (hi : i < n) :
    get_flattened_index i j n + i * (i + 1) / 2 = j + i * n := by
  unfold get_flattened_index
  have := tri_le_mul hi
  omega

theorem get_flattened_index_mono_j (i j j' n : ℕ) (hi : i < n) (hj : j < j') :
    get_flattened_index i j n < get_flattened_index i j' n := by
  have h1 := get_flattened_index_add i j n hi
  have h2 := get_flattened_index_add i j' n hi
  omega

theorem get_flattened_index_step (i n : ℕ) (h : i + 1 < n) :
    get_flattened_index i (n - 1) n + 1 = get_flattened_index (i + 1) (i + 1) n := by
  have h1 := get_flattened_index_add i (n - 1) n (by omega)
  have h2 := get_flattened_index_add (i + 1) (i + 1) n h
  have h3 : (i + 1) * (i + 1 + 1) / 2 = i * (i + 1) / 2 + (i + 1) := by
    rw [show i + 1 + 1 = i + 2 from rfl]
    exact tri_succ i
  have h4 : (i + 1) * n = i * n + n := Nat.succ_mul i n
  omega

theorem get_flattened_index_diag_le (n : ℕ) : ∀ (d i : ℕ), i + d < n →
    get_flattened_index i i n ≤ get_flattened_index (i + d) (i + d) n
  | 0, i, _ => le_rfl
  | d + 1, i, h => by
    have ih := get_flattened_index_diag_le n d i (by omega)
    have hstep := get_flattened_index_step (i + d) n (by omega)
    have hmono : get_flattened_index (i + d) (i + d) n ≤ get_flattened_index (i + d) (n - 1) n := by
      rcases Nat.lt_or_ge (i + d) (n - 1) with hlt | hge
      · exact le_of_lt (get_flattened_index_mono_j (i + d) (i + d) (n - 1) n (by omega) hlt)
      · have he : i + d = n - 1 := by omega
        rw [he]
    have he2 : i + (d + 1) = i + d + 1 := by omega
    rw [he2]
    omega

theorem get_flattened_index_lex (i j i' j' n : ℕ) (hij : i ≤ j) (hj : j < n)
    (hij' : i' ≤ j') (hj' : j' < n) (hlex : i < i' ∨ (i = i' ∧ j < j')) :
    get_flattened_index i j n < get_flattened_index i' j' n := by
  rcases hlex with hlt | ⟨heq, hjj⟩
  · have h1 : get_flattened_index i j n ≤ get_flattened_index i (n - 1) n := by
      rcases Nat.lt_or_ge j (n - 1) with hl | hg
      · exact le_of_lt (get_flattened_index_mono_j i j (n - 1) n (by omega) hl)
      · have he : j = n - 1 := by omega
        rw [he]
    have h2 := get_flattened_index_step i n (by omega)
    have h3 : get_flattened_index (i + 1) (i + 1) n ≤ get_flattened_index i' i' n := by
      have hd := get_flattened_index_diag_le n (i' - (i + 1)) (i + 1) (by omega)
      have he : i + 1 + (i' - (i + 1)) = i' := by omega
      rwa [he] at hd
    have h4 : get_flattened_index i' i' n ≤ get_flattened_index i' j' n := by
      rcases Nat.lt_or_ge i' j' with hl | hg
      · exact le_of_lt (get_flattened_index_mono_j i' i' j' n (by omega) hl)
      · have he : i' = j' := by omega
        rw [he]
    omega
  · subst heq
    exact get_flattened_index_mono_j i j j' n (by omega) hjj

theorem get_flattened_index_bound (i j n : ℕ) (hij : i ≤ j) (hj : j < n) :
    get_flattened_index i j n < n * (n + 1) / 2 := by
  have h1 : get_flattened_index i j n ≤ get_flattened_index (n - 1) (n - 1) n := by
    rcases Nat.lt_or_ge i (n - 1) with hl | hg
    · exact le_of_lt (get_flattened_index_lex i j (n - 1) (n - 1) n hij hj le_rfl
        (by omega) (Or.inl hl))
    · have hi : i = n - 1 := by omega
      have hj2 : j = n - 1 := by omega
      rw [hi, hj2]
  have h2 := get_flattened_index_add (n - 1) (n - 1) n (by omega)
  have h4 := tri_succ (n - 1)
  have h5 : n - 1 + 1 = n := by omega
  have h6 : n - 1 + 2 = n + 1 := by omega
  rw [h5, h6] at h4
  have h7 := two_mul_tri (n - 1)
  rw [h5] at h7
  rw [h5] at h2
  omega

theorem get_flattened_index_inj (i j i' j' n : ℕ) (hij : i ≤ j) (hj : j < n)
    (hij' : i' ≤ j') (hj' : j' < n)
    (heq : get_flattened_index i j n = get_flattened_index i' j' n) : i = i' ∧ j = j' := by
  rcases Nat.lt_trichotomy i i' with h | h | h
  · exact absurd heq
      (Nat.ne_of_lt (get_flattened_index_lex i j i' j' n hij hj hij' hj' (Or.inl h)))
  · subst h
    rcases Nat.lt_trichotomy j j' with h2 | h2 | h2
    · exact absurd heq
        (Nat.ne_of_lt (get_flattened_index_lex i j i j' n hij hj hij' hj' (Or.inr ⟨rfl, h2⟩)))
    · exact ⟨rfl, h2⟩
    · exact absurd heq.symm
        (Nat.ne_of_lt (get_flattened_index_lex i j' i j n hij' hj' hij hj (Or.inr ⟨rfl, h2⟩)))
  · exact absurd heq.symm
      (Nat.ne_of_lt (get_flattened_index_lex i' j' i j n hij' hj' hij hj (Or.inl h)))

/-! ### The sub-to-full element index map -/

theorem sortNat_perm (l : List ℕ) : (sortNat l).Perm l := List.mergeSort_perm l _

theorem sortNat_sorted (l : List ℕ) : (sortNat l).Sorted (· ≤ ·) := by
  have h := @List.sorted_mergeSort ℕ (fun a b => decide (a ≤ b))
    (by intro a b c h1 h2; simp only [decide_eq_true_eq] at *; omega)
    (by intro a b; simp only [Bool.or_eq_true, decide_eq_true_eq]; omega) l
  exact h.imp (by intro a b hab; simpa using hab)

theorem indexOf_mono_of_sorted {F : List ℕ} (hs : F.Sorted (· ≤ ·)) {a b : ℕ}
    (ha : a ∈ F) (hb : b ∈ F) (hab : a < b) : F.indexOf a < F.indexOf b := by
  have hia : F.indexOf a < F.length := List.indexOf_lt_length.mpr ha
  have hib : F.indexOf b < F.length := List.indexOf_lt_length.mpr hb
  by_contra hle
  push_neg at hle
  have h1 := List.getElem_indexOf hia
  have h2 := List.getElem_indexOf hib
  rcases Nat.eq_or_lt_of_le hle with heq | hlt
  · have : b = a := (List.indexOf_inj hb ha).mp heq
    omega
  · have h3 := List.pairwise_iff_getElem.mp hs _ _ hib hia hlt
    rw [h1, h2] at h3
    omega

theorem sub_to_full_map_strict (sub full : List ℕ) (hnd : sub.Nodup)
    (hmem : ∀ z ∈ sub, z ∈ full) {i j : ℕ} (hij : i < j) (hj : j < sub.length) :
    get_sub_to_full_map sub full i < get_sub_to_full_map sub full j := by
  unfold get_sub_to_full_map
  have hperm := sortNat_perm sub
  have hlen : (sortNat sub).length = sub.length := hperm.length_eq
  have hsnd : (sortNat sub).Nodup := (hperm.nodup_iff).mpr hnd
  have hstrict : (sortNat sub).Pairwise (· < ·) :=
    ((sortNat_sorted sub).and hsnd).imp (fun h => lt_of_le_of_ne h.1 h.2)
  have hval : (sortNat sub).getD i 0 < (sortNat sub).getD j 0 := by
    rw [List.getD_eq_getElem _ _ (by omega), List.getD_eq_getElem _ _ (by omega)]
    exact List.pairwise_iff_getElem.mp hstrict i j (by omega) (by omega) hij
  have hmem_i : (sortNat sub).getD i 0 ∈ sortNat full :=
    ((sortNat_perm full).mem_iff).mpr (hmem _ (hperm.mem_iff.mp (getD_mem (by omega) 0)))
  have hmem_j : (sortNat sub).getD j 0 ∈ sortNat full :=
    ((sortNat_perm full).mem_iff).mpr (hmem _ (hperm.mem_iff.mp (getD_mem (by omega) 0)))
  exact indexOf_mono_of_sorted (sortNat_sorted full) hmem_i hmem_j hval

theorem sub_to_full_map_lt (sub full : List ℕ) (hmem : ∀ z ∈ sub, z ∈ full) {i : ℕ}
    (hi : i < sub.length) : get_sub_to_full_map sub full i < full.length := by
  unfold get_sub_to_full_map
  have hperm := sortNat_perm sub
  have h1 : (sortNat sub).getD i 0 ∈ sortNat full :=
    ((sortNat_perm full).mem_iff).mpr
      (hmem _ (hperm.mem_iff.mp (getD_mem (by rw [hperm.length_eq]; omega) 0)))
  have h2 := List.indexOf_lt_length.mpr h1
  rwa [(sortNat_perm full).length_eq] at h2

theorem sub_to_full_map_mono (sub full : List ℕ) (hnd : sub.Nodup)
    (hmem : ∀ z ∈ sub, z ∈ full) {i j : ℕ} (hij : i ≤ j) (hj : j < sub.length) :
    get_sub_to_full_map sub full i ≤ get_sub_to_full_map sub full j := by
  rcases Nat.eq_or_lt_of_le hij with heq | hlt
  · rw [heq]
  · exact le_of_lt (sub_to_full_map_strict sub full hnd hmem hlt hj)

end SOAP

/-- C10: when every sub-space atomic number occurs in the full species
list (and the sub list is duplicate-free, as the call site guarantees by
building it from a set), the index map of `get_sub_to_full_map` is
strictly increasing in the sorted sub index; hence every upper-triangular
sub pair `(i, j)` maps to a full-space pair with `i_full ≤ j_full` whose
flattened index addresses a valid full-space block (it is below the
number `n*(n+1)/2` of blocks), so no min/max canonicalization is needed. -/
theorem soap_sub_to_full_map_strictMono (sub full : List ℕ) (hnd : sub.Nodup)
    (hmem : ∀ z ∈ sub, z ∈ full) :
    (∀ i j, i < j → j < sub.length →
      SOAP.get_sub_to_full_map sub full i < SOAP.get_sub_to_full_map sub full j)
    ∧ (∀ i j, i ≤ j → j < sub.length →
        SOAP.get_sub_to_full_map sub full i ≤ SOAP.get_sub_to_full_map sub full j
        ∧ SOAP.get_sub_to_full_map sub full j < full.length
        ∧ SOAP.get_flattened_index (SOAP.get_sub_to_full_map sub full i)
            (SOAP.get_sub_to_full_map sub full j) full.length
            < full.length * (full.length + 1) / 2) := by
  refine ⟨fun i j hij hj => SOAP.sub_to_full_map_strict sub full hnd hmem hij hj, ?_⟩
  intro i j hij hj
  refine ⟨SOAP.sub_to_full_map_mono sub full hnd hmem hij hj,
    SOAP.sub_to_full_map_lt sub full hmem hj, ?_⟩
  exact SOAP.get_flattened_index_bound _ _ _
    (SOAP.sub_to_full_map_mono sub full hnd hmem hij hj)
    (SOAP.sub_to_full_map_lt sub full hmem hj)

/-- Witness for C10: `sub = [6, 1]` (an unsorted set of present elements)
inside the species list `full = [1, 6, 8]`. -/
theorem soap_sub_to_full_map_strictMono_witness :
    (∀ i j, i < j → j < ([6, 1] : List ℕ).length →
      SOAP.get_sub_to_full_map [6, 1] [1, 6, 8] i < SOAP.get_sub_to_full_map [6, 1] [1, 6, 8] j)
    ∧ SOAP.get_sub_to_full_map [6, 1] [1, 6, 8] 0 = 0
    ∧ SOAP.get_sub_to_full_map [6, 1] [1, 6, 8] 1 = 1 := by
  have hs : SOAP.sortNat [6, 1] = [1, 6] :=
    List.eq_of_perm_of_sorted ((SOAP.sortNat_perm [6, 1]).trans (by decide))
      (SOAP.sortNat_sorted [6, 1]) (by decide)
  have hf : SOAP.sortNat [1, 6, 8] = [1, 6, 8] :=
    List.eq_of_perm_of_sorted (SOAP.sortNat_perm [1, 6, 8])
      (SOAP.sortNat_sorted [1, 6, 8]) (by decide)
  refine ⟨(soap_sub_to_full_map_strictMono [6, 1] [1, 6, 8] (by decide) (by decide)).1, ?_, ?_⟩
  · simp [SOAP.get_sub_to_full_map, hs, hf]
  · simp [SOAP.get_sub_to_full_map, hs, hf]

namespace SOAP

/-! ### The slice-assignment fold of `get_full_space_output` -/

theorem foldl_writeBlock_notin {β : Type} (L : List β) (start : β → ℕ) (blk : β → ℕ → ℚ)
    (w : ℕ) (f : ℕ → ℚ) (c : ℕ)
    (h : ∀ p ∈ L, ¬(start p ≤ c ∧ c < start p + w)) :
    (L.foldl (fun acc p => writeBlock acc (start p) (blk p) w) f) c = f c := by
  induction L generalizing f with
  | nil => rfl
  | cons a l ih =>
    rw [List.foldl_cons, ih _ (fun p hp => h p (.tail _ hp))]
    unfold writeBlock
    rw [if_neg (h a (.head _))]

theorem foldl_writeBlock_covered {β : Type} (L : List β) (start : β → ℕ) (blk : β → ℕ → ℚ)
    (w : ℕ) (f : ℕ → ℚ) (c s₀ : ℕ) (b₀ : ℕ → ℚ)
    (hex : ∃ p ∈ L, start p ≤ c ∧ c < start p + w)
    (hagree : ∀ p ∈ L, (start p ≤ c ∧ c < start p + w) → start p = s₀ ∧ blk p = b₀) :
    (L.foldl (fun acc p => writeBlock acc (start p) (blk p) w) f) c = b₀ (c - s₀) := by
  induction L generalizing f with
  | nil =>
    obtain ⟨p, hp, _⟩ := hex
    cases hp
  | cons a l ih =>
    rw [List.foldl_cons]
    by_cases hex' : ∃ p ∈ l, start p ≤ c ∧ c < start p + w
    · exact ih _ hex' (fun p hp h => hagree p (.tail _ hp) h)
    · push_neg at hex'
      have hca : start a ≤ c ∧ c < start a + w := by
        obtain ⟨p, hp, hc⟩ := hex
        rcases List.mem_cons.mp hp with heq | hp'
        · rw [← heq]
          exact hc
        · exact absurd hc (fun hcc => by have := hex' p hp' hcc.1; omega)
      rw [foldl_writeBlock_notin l start blk w _ c
        (fun p hp hcc => by have := hex' p hp hcc.1; omega)]
      unfold writeBlock
      rw [if_pos hca]
      obtain ⟨hs, hb⟩ := hagree a (.head _) hca
      rw [hb, hs]

/-! ### The pair enumeration of the double loop -/

theorem pairsUpper_mem_bounds (k : ℕ) (q : ℕ × ℕ) (hq : q ∈ pairsUpper k) :
    q.1 ≤ q.2 ∧ q.2 < k := by
  unfold pairsUpper at hq
  rw [List.mem_flatMap] at hq
  obtain ⟨i, hi, hq2⟩ := hq
  rw [List.mem_map] at hq2
  obtain ⟨j, hj, rfl⟩ := hq2
  rw [List.mem_filter] at hj
  refine ⟨by simpa using hj.2, List.mem_range.mp hj.1⟩

theorem pairsUpper_mem (k i j : ℕ) (hij : i ≤ j) (hj : j < k) : (i, j) ∈ pairsUpper k := by
  unfold pairsUpper
  rw [List.mem_flatMap]
  exact ⟨i, List.mem_range.mpr (by omega),
    List.mem_map.mpr ⟨j, List.mem_filter.mpr ⟨List.mem_range.mpr hj, by simpa using hij⟩, rfl⟩⟩

theorem pairsUpper_nodup (k : ℕ) : (pairsUpper k).Nodup := by
  unfold pairsUpper
  rw [List.nodup_flatMap]
  constructor
  · intro i _
    exact List.Nodup.map (fun a b hab => by simpa using hab)
      (List.Nodup.filter _ (List.nodup_range k))
  · have h : ∀ i i' : ℕ, i ≠ i' →
        List.Disjoint (((List.range k).filter (fun j => i ≤ j)).map (fun j => (i, j)))
          (((List.range k).filter (fun j => i' ≤ j)).map (fun j => (i', j))) := by
      intro i i' hne q hq hq'
      rw [List.mem_map] at hq hq'
      obtain ⟨j, _, rfl⟩ := hq
      obtain ⟨j', _, heq⟩ := hq'
      exact hne (congrArg Prod.fst heq).symm
    exact (List.pairwise_lt_range k).imp (fun hab => h _ _ (by omega))

theorem length_filter_le_range (i k : ℕ) :
    ((List.range k).filter (fun j => i ≤ j)).length = k - i := by
  induction k with
  | zero => simp
  | succ k ih =>
    rw [List.range_succ, List.filter_append, List.length_append, ih]
    by_cases h : i ≤ k
    · simp only [List.filter_cons, List.filter_nil]
      rw [if_pos (by simpa using h)]
      simp only [List.length_cons, List.length_nil]
      omega
    · simp only [List.filter_cons, List.filter_nil]
      rw [if_neg (by simpa using h)]
      simp only [List.length_nil]
      omega

theorem sum_range_succ_map (k : ℕ) :
    ((List.range k).map (fun i => i + 1)).sum = k * (k + 1) / 2 := by
  induction k with
  | zero => simp
  | succ k ih =>
    rw [List.range_succ, List.map_append, List.sum_append, ih]
    simp only [List.map_cons, List.map_nil, List.sum_cons, List.sum_nil]
    rw [show k + 1 + 1 = k + 2 from rfl, tri_succ k]
    omega

theorem pairsUpper_length (k : ℕ) : (pairsUpper k).length = k * (k + 1) / 2 := by
  unfold pairsUpper
  rw [List.length_flatMap]
  have h1 : (List.map (List.length ∘ fun i =>
      ((List.range k).filter (fun j => i ≤ j)).map (fun j => (i, j))) (List.range k))
      = (List.range k).map (fun i => k - i) := by
    apply List.map_congr_left
    intro i _
    show (((List.range k).filter (fun j => i ≤ j)).map (fun j => (i, j))).length = k - i
    rw [List.length_map]
    exact length_filter_le_range i k
  rw [h1]
  have h2 : (List.range k).map (fun i => k - i) = ((List.range k).map (fun i => i + 1)).reverse := by
    apply List.ext_getElem (by simp)
    intro t ht1 ht2
    simp only [List.getElem_map, List.getElem_range, List.getElem_reverse, List.length_map,
      List.length_range]
    simp only [List.length_map, List.length_range] at ht1
    omega
  rw [h2, List.sum_reverse]
  exact sum_range_succ_map k

end SOAP

/-- C1: for every remap call whose sub-space atomic numbers all occur in
the full species list (the sub list being duplicate-free, as the call
site guarantees by building it from a set) and with crossover enabled,
`get_full_space_output` (i) keeps one output row per input row, each of
full-space width `get_number_of_features`; (ii) copies the
`n_elem_features`-wide block of every sub pair `(i, j)`, `i ≤ j`, from
flattened sub index `m(i,j,k)` to the full-space block at flattened index
`m(i_full,j_full)` unchanged; (iii) leaves every column outside those
blocks exactly zero; and (iv) the written columns number exactly
`k*(k+1)/2 * n_elem_features` per row. -/
theorem soap_remap_correct (nmax lmax : ℕ) (full sub : List ℕ) (sub_output : List (ℕ → ℚ))
    (hnd : sub.Nodup) (hmem : ∀ z ∈ sub, z ∈ full) :
    let cfg : SOAP.Config := ⟨nmax, lmax, true, full⟩
    let w := SOAP.get_number_of_element_features cfg
    let k := sub.length
    let σ := SOAP.get_sub_to_full_map sub full
    let out := SOAP.get_full_space_output cfg sub_output sub
    out.length = sub_output.length
    ∧ (∀ row ∈ out, row.length = SOAP.get_number_of_features cfg)
    ∧ (∀ r, r < sub_output.length → ∀ i j, i ≤ j → j < k → ∀ t, t < w →
        (out.getD r []).getD (SOAP.get_flattened_index (σ i) (σ j) full.length * w + t) 0
          = (sub_output.getD r (fun _ => 0)) (SOAP.get_flattened_index i j k * w + t))
    ∧ (∀ r, r < sub_output.length → ∀ c : ℕ,
        (∀ i j, i ≤ j → j < k →
          ¬(SOAP.get_flattened_index (σ i) (σ j) full.length * w ≤ c
            ∧ c < SOAP.get_flattened_index (σ i) (σ j) full.length * w + w)) →
        (out.getD r []).getD c 0 = 0)
    ∧ ((Finset.range (SOAP.get_number_of_features cfg)).filter (fun c =>
        ∃ q ∈ SOAP.pairsUpper k,
          SOAP.get_flattened_index (σ q.1) (σ q.2) full.length * w ≤ c
          ∧ c < SOAP.get_flattened_index (σ q.1) (σ q.2) full.length * w + w)).card
      = k * (k + 1) / 2 * w := by
  intro cfg w k σ out
  have hnf : SOAP.get_number_of_features cfg = w * (full.length * (full.length + 1) / 2) := rfl
  have hσlt : ∀ {j : ℕ}, j < k → σ j < full.length := fun hj =>
    SOAP.sub_to_full_map_lt sub full hmem hj
  have hσmono : ∀ {i j : ℕ}, i ≤ j → j < k → σ i ≤ σ j := fun hij hj =>
    SOAP.sub_to_full_map_mono sub full hnd hmem hij hj
  have hσinj : ∀ a b, a < k → b < k → σ a = σ b → a = b := by
    intro a b ha hb heq
    rcases Nat.lt_trichotomy a b with h | h | h
    · exact absurd heq (Nat.ne_of_lt (SOAP.sub_to_full_map_strict sub full hnd hmem h hb))
    · exact h
    · exact absurd heq.symm (Nat.ne_of_lt (SOAP.sub_to_full_map_strict sub full hnd hmem h ha))
  have hpair_eq : ∀ q ∈ SOAP.pairsUpper k, ∀ q' ∈ SOAP.pairsUpper k, ∀ c : ℕ,
      (SOAP.get_flattened_index (σ q.1) (σ q.2) full.length * w ≤ c
        ∧ c < SOAP.get_flattened_index (σ q.1) (σ q.2) full.length * w + w) →
      (SOAP.get_flattened_index (σ q'.1) (σ q'.2) full.length * w ≤ c
        ∧ c < SOAP.get_flattened_index (σ q'.1) (σ q'.2) full.length * w + w) →
      q = q' := by
    intro q hq q' hq' c h1 h2
    obtain ⟨hq1, hq2⟩ := SOAP.pairsUpper_mem_bounds k q hq
    obtain ⟨hq1', hq2'⟩ := SOAP.pairsUpper_mem_bounds k q' hq'
    have hm : SOAP.get_flattened_index (σ q.1) (σ q.2) full.length
        = SOAP.get_flattened_index (σ q'.1) (σ q'.2) full.length := by
      rcases Nat.lt_trichotomy (SOAP.get_flattened_index (σ q.1) (σ q.2) full.length)
        (SOAP.get_flattened_index (σ q'.1) (σ q'.2) full.length) with h | h | h
      · have hmul := Nat.mul_le_mul_right w (show
          SOAP.get_flattened_index (σ q.1) (σ q.2) full.length + 1
            ≤ SOAP.get_flattened_index (σ q'.1) (σ q'.2) full.length from by omega)
        have hs : (SOAP.get_flattened_index (σ q.1) (σ q.2) full.length + 1) * w
            = SOAP.get_flattened_index (σ q.1) (σ q.2) full.length * w + w :=
          Nat.succ_mul _ _
        have hw' : SOAP.get_number_of_element_features cfg = w := rfl
        omega
      · exact h
      · have hmul := Nat.mul_le_mul_right w (show
          SOAP.get_flattened_index (σ q'.1) (σ q'.2) full.length + 1
            ≤ SOAP.get_flattened_index (σ q.1) (σ q.2) full.length from by omega)
        have hs : (SOAP.get_flattened_index (σ q'.1) (σ q'.2) full.length + 1) * w
            = SOAP.get_flattened_index (σ q'.1) (σ q'.2) full.length * w + w :=
          Nat.succ_mul _ _
        have hw' : SOAP.get_number_of_element_features cfg = w := rfl
        omega
    obtain ⟨he1, he2⟩ := SOAP.get_flattened_index_inj (σ q.1) (σ q.2) (σ q'.1) (σ q'.2)
      full.length (hσmono hq1 hq2) (hσlt hq2) (hσmono hq1' hq2') (hσlt hq2') hm
    have e1 : q.1 = q'.1 := hσinj _ _ (by omega) (by omega) he1
    have e2 : q.2 = q'.2 := hσinj _ _ hq2 hq2' he2
    exact Prod.ext e1 e2
  have hrw : ∀ subRow : ℕ → ℚ, SOAP.remapRow cfg sub subRow =
      (SOAP.pairsUpper k).foldl
        (fun acc q => SOAP.writeBlock acc
          (SOAP.get_flattened_index (σ q.1) (σ q.2) full.length * w)
          (fun t => subRow (SOAP.get_flattened_index q.1 q.2 k * w + t)) w)
        (fun _ => 0) := fun _ => rfl
  have hout : ∀ r, r < sub_output.length → ∀ c, c < SOAP.get_number_of_features cfg →
      (out.getD r []).getD c 0
        = SOAP.remapRow cfg sub (sub_output.getD r (fun _ => 0)) c := by
    intro r hr c hc
    show ((SOAP.get_full_space_output cfg sub_output sub).getD r []).getD c 0 = _
    unfold SOAP.get_full_space_output
    rw [getD_map _ _ hr [] (fun _ => 0), getD_map_range _ hc 0]
  have hrowlen : ∀ r, r < sub_output.length →
      (out.getD r []).length = SOAP.get_number_of_features cfg := by
    intro r hr
    show ((SOAP.get_full_space_output cfg sub_output sub).getD r []).length = _
    unfold SOAP.get_full_space_output
    rw [getD_map _ _ hr [] (fun _ => 0)]
    simp
  have hcovlt : ∀ q ∈ SOAP.pairsUpper k, ∀ c : ℕ,
      (SOAP.get_flattened_index (σ q.1) (σ q.2) full.length * w ≤ c
        ∧ c < SOAP.get_flattened_index (σ q.1) (σ q.2) full.length * w + w) →
      c < SOAP.get_number_of_features cfg := by
    intro q hq c hcov
    obtain ⟨hb1, hb2⟩ := SOAP.pairsUpper_mem_bounds k q hq
    have hm_bound := SOAP.get_flattened_index_bound (σ q.1) (σ q.2) full.length
      (hσmono hb1 hb2) (hσlt hb2)
    have h1 := Nat.mul_le_mul_right w (show
      SOAP.get_flattened_index (σ q.1) (σ q.2) full.length + 1
        ≤ full.length * (full.length + 1) / 2 from by omega)
    have h2 : (SOAP.get_flattened_index (σ q.1) (σ q.2) full.length + 1) * w
        = SOAP.get_flattened_index (σ q.1) (σ q.2) full.length * w + w :=
      Nat.succ_mul _ _
    have h3 : (full.length * (full.length + 1) / 2) * w
        = w * (full.length * (full.length + 1) / 2) := Nat.mul_comm _ _
    have hw' : SOAP.get_number_of_element_features cfg = w := rfl
    rw [hnf]
    omega
  refine ⟨?_, ?_, ?_, ?_, ?_⟩
  · simp [SOAP.get_full_space_output, out]
  · intro row hrow
    simp only [out, SOAP.get_full_space_output, List.mem_map] at hrow
    obtain ⟨r0, _, rfl⟩ := hrow
    simp
  · intro r hr i j hij hj t ht
    have hcov0 : SOAP.get_flattened_index (σ (i, j).1) (σ (i, j).2) full.length * w
          ≤ SOAP.get_flattened_index (σ i) (σ j) full.length * w + t
        ∧ SOAP.get_flattened_index (σ i) (σ j) full.length * w + t
          < SOAP.get_flattened_index (σ (i, j).1) (σ (i, j).2) full.length * w + w := by
      show SOAP.get_flattened_index (σ i) (σ j) full.length * w
          ≤ SOAP.get_flattened_index (σ i) (σ j) full.length * w + t
        ∧ SOAP.get_flattened_index (σ i) (σ j) full.length * w + t
          < SOAP.get_flattened_index (σ i) (σ j) full.length * w + w
      omega
    have hcnf : SOAP.get_flattened_index (σ i) (σ j) full.length * w + t
        < SOAP.get_number_of_features cfg :=
      hcovlt (i, j) (SOAP.pairsUpper_mem k i j hij hj) _ hcov0
    rw [hout r hr _ hcnf, hrw]
    have happ := SOAP.foldl_writeBlock_covered (SOAP.pairsUpper k)
      (fun q => SOAP.get_flattened_index (σ q.1) (σ q.2) full.length * w)
      (fun q t' => (sub_output.getD r (fun _ => 0))
        (SOAP.get_flattened_index q.1 q.2 k * w + t'))
      w (fun _ => 0)
      (SOAP.get_flattened_index (σ i) (σ j) full.length * w + t)
      (SOAP.get_flattened_index (σ i) (σ j) full.length * w)
      (fun t' => (sub_output.getD r (fun _ => 0))
        (SOAP.get_flattened_index i j k * w + t'))
      ⟨(i, j), SOAP.pairsUpper_mem k i j hij hj, hcov0.1, hcov0.2⟩
      ?_
    · rw [happ]
      have he : SOAP.get_flattened_index (σ i) (σ j) full.length * w + t
          - SOAP.get_flattened_index (σ i) (σ j) full.length * w = t := by omega
      rw [he]
    · intro q hq hcov
      have hq_eq : q = (i, j) := hpair_eq q hq (i, j) (SOAP.pairsUpper_mem k i j hij hj)
        (SOAP.get_flattened_index (σ i) (σ j) full.length * w + t) hcov hcov0
      subst hq_eq
      exact ⟨rfl, rfl⟩
  · intro r hr c hnone
    by_cases hcnf : c < SOAP.get_number_of_features cfg
    · rw [hout r hr c hcnf, hrw]
      refine SOAP.foldl_writeBlock_notin _ _ _ _ _ _ ?_
      intro q hq hcov
      obtain ⟨h1, h2⟩ := SOAP.pairsUpper_mem_bounds k q hq
      exact hnone q.1 q.2 h1 h2 hcov
    · rw [List.getD_eq_default _ _ (by rw [hrowlen r hr]; omega)]
  · have hset : (Finset.range (SOAP.get_number_of_features cfg)).filter (fun c =>
        ∃ q ∈ SOAP.pairsUpper k,
          SOAP.get_flattened_index (σ q.1) (σ q.2) full.length * w ≤ c
          ∧ c < SOAP.get_flattened_index (σ q.1) (σ q.2) full.length * w + w)
        = ((SOAP.pairsUpper k).toFinset).biUnion (fun q =>
            Finset.Ico (SOAP.get_flattened_index (σ q.1) (σ q.2) full.length * w)
              (SOAP.get_flattened_index (σ q.1) (σ q.2) full.length * w + w)) := by
      ext c
      simp only [Finset.mem_filter, Finset.mem_range, Finset.mem_biUnion, List.mem_toFinset,
        Finset.mem_Ico]
      constructor
      · rintro ⟨_, q, hq, hcov⟩
        exact ⟨q, hq, hcov⟩
      · rintro ⟨q, hq, hcov⟩
        exact ⟨hcovlt q hq c hcov, q, hq, hcov⟩
    have hdisj : ∀ q ∈ (SOAP.pairsUpper k).toFinset, ∀ q' ∈ (SOAP.pairsUpper k).toFinset,
        q ≠ q' → Disjoint
          (Finset.Ico (SOAP.get_flattened_index (σ q.1) (σ q.2) full.length * w)
            (SOAP.get_flattened_index (σ q.1) (σ q.2) full.length * w + w))
          (Finset.Ico (SOAP.get_flattened_index (σ q'.1) (σ q'.2) full.length * w)
            (SOAP.get_flattened_index (σ q'.1) (σ q'.2) full.length * w + w)) := by
      intro q hq q' hq' hne
      rw [Finset.disjoint_left]
      intro c hc hc'
      rw [Finset.mem_Ico] at hc hc'
      exact hne (hpair_eq q (List.mem_toFinset.mp hq) q' (List.mem_toFinset.mp hq') c hc hc')
    rw [hset, Finset.card_biUnion hdisj]
    have hcard : ∀ q ∈ (SOAP.pairsUpper k).toFinset,
        (Finset.Ico (SOAP.get_flattened_index (σ q.1) (σ q.2) full.length * w)
          (SOAP.get_flattened_index (σ q.1) (σ q.2) full.length * w + w)).card = w := by
      intro q _
      rw [Nat.card_Ico]
      omega
    rw [Finset.sum_congr rfl hcard, Finset.sum_const, smul_eq_mul,
      List.toFinset_card_of_nodup (SOAP.pairsUpper_nodup k), SOAP.pairsUpper_length k]

/-- Witness for C1: species `[1, 6, 8]`, present elements `[6, 1]`
(`nmax = 1`, `lmax = 0`, so each element-pair block is one column wide),
one sample row: the output keeps one row and the `(0, 1)` sub pair block
lands at the full-space `(0, 1)` block unchanged. -/
theorem soap_remap_correct_witness :
    (SOAP.get_full_space_output ⟨1, 0, true, [1, 6, 8]⟩ [fun c => (c : ℚ) + 1] [6, 1]).length = 1
    ∧ ((SOAP.get_full_space_output ⟨1, 0, true, [1, 6, 8]⟩ [fun c => (c : ℚ) + 1] [6, 1]).getD 0
          []).getD
        (SOAP.get_flattened_index (SOAP.get_sub_to_full_map [6, 1] [1, 6, 8] 0)
            (SOAP.get_sub_to_full_map [6, 1] [1, 6, 8] 1) ([1, 6, 8] : List ℕ).length
          * SOAP.get_number_of_element_features ⟨1, 0, true, [1, 6, 8]⟩ + 0) 0
      = (([fun c => (c : ℚ) + 1] : List (ℕ → ℚ)).getD 0 (fun _ => 0))
          (SOAP.get_flattened_index 0 1 ([6, 1] : List ℕ).length
            * SOAP.get_number_of_element_features ⟨1, 0, true, [1, 6, 8]⟩ + 0) := by
  have h := soap_remap_correct 1 0 [1, 6, 8] [6, 1] [fun c => (c : ℚ) + 1]
    (by decide) (by decide)
  exact ⟨h.1, h.2.2.1 0 (by decide) 0 1 (by decide) (by decide) 0 (by decide)⟩

namespace MatrixDescriptor

/-- The characteristic polynomial of a 2×2 complex matrix with zero
diagonal and off-diagonal product 4 is `(X - 2)(X + 2)`. -/
theorem charpoly_offdiag_four (A : Matrix (Fin 2) (Fin 2) ℂ)
    (h00 : A 0 0 = 0) (h11 : A 1 1 = 0) (h14 : A 0 1 * A 1 0 = 4) :
    A.charpoly = (Polynomial.X - Polynomial.C 2) * (Polynomial.X - Polynomial.C (-2)) := by
  show (Matrix.charmatrix A).det = _
  rw [Matrix.det_fin_two, Matrix.charmatrix_apply_eq, Matrix.charmatrix_apply_eq,
    Matrix.charmatrix_apply_ne _ _ _ (by decide), Matrix.charmatrix_apply_ne _ _ _ (by decide),
    h00, h11]
  have h1 : (-Polynomial.C (A 0 1)) * (-Polynomial.C (A 1 0)) = Polynomial.C 4 := by
    rw [neg_mul_neg, ← Polynomial.C_mul, h14]
  rw [h1]
  have hexp : ((Polynomial.X : Polynomial ℂ) - Polynomial.C 2)
        * (Polynomial.X - Polynomial.C (-2))
      = Polynomial.X * Polynomial.X - (Polynomial.C 2 + Polynomial.C (-2)) * Polynomial.X
        + Polynomial.C 2 * Polynomial.C (-2) := by ring
  rw [hexp, ← Polynomial.C_add, ← Polynomial.C_mul]
  norm_num
  rw [sub_eq_add_neg]

/-- The eigenvalue multiset of `[[0, a], [b, 0]]` with `a * b = 4` is
`{2, -2}`: two eigenvalues of equal absolute value. -/
theorem eigenvalueMultiset_offdiag_four (a b : ℚ) (hab : a * b = 4) :
    eigenvalueMultiset [[0, a], [b, 0]] = ({2, -2} : Multiset ℂ) := by
  show ((listToMatrixC [[0, a], [b, 0]] : Matrix (Fin 2) (Fin 2) ℂ)).charpoly.roots = _
  rw [charpoly_offdiag_four (listToMatrixC [[0, a], [b, 0]] : Matrix (Fin 2) (Fin 2) ℂ)
    (by simp [listToMatrixC]) (by simp [listToMatrixC])
    (by
      show (((a : ℚ) : ℂ)) * (((b : ℚ) : ℂ)) = 4
      exact_mod_cast hab)]
  rw [Polynomial.roots_mul (mul_ne_zero (Polynomial.X_sub_C_ne_zero 2)
    (Polynomial.X_sub_C_ne_zero (-2))), Polynomial.roots_X_sub_C, Polynomial.roots_X_sub_C,
    Multiset.singleton_add]
  exact (Multiset.insert_eq_cons _ _).symm

/-- C4 (counterexample): the claim that the eigenspectrum policy encodes
the symmetrically permuted matrix to exactly the same value sequence is
false.  `[[0, 1], [4, 0]]` has distinct row L2 norms but eigenvalues
`2` and `-2` of equal absolute value; the external eigensolver may
return them in either order for the original and the permuted matrix,
and the two orders encode to different sequences. -/
theorem encode_eigenspectrum_sequence_counterexample :
    ¬ (∀ (M : List (List ℚ)) (q : List ℕ),
        (∀ row ∈ M, row.length = M.length) →
        q.Perm (List.range M.length) →
        (M.map rowNormSq).Nodup →
        ∀ e1 e2 : List (ℚ × ℚ),
          (↑(e1.map pairToC) : Multiset ℂ) = eigenvalueMultiset M →
          (↑(e2.map pairToC) : Multiset ℂ) = eigenvalueMultiset (symPerm M q) →
          get_eigenspectrum e2 = get_eigenspectrum e1) := by
  intro h
  have hsym : symPerm [[0, 1], [4, 0]] [1, 0] = [[0, 4], [1, 0]] := by decide
  have hpc2 : pairToC (2, 0) = (2 : ℂ) := by
    apply Complex.ext <;> norm_num [pairToC]
  have hpcm2 : pairToC (-2, 0) = (-2 : ℂ) := by
    apply Complex.ext <;> norm_num [pairToC]
  have hm1 : (↑(([((2 : ℚ), (0 : ℚ)), (-2, 0)]).map pairToC) : Multiset ℂ)
      = eigenvalueMultiset [[0, 1], [4, 0]] := by
    rw [eigenvalueMultiset_offdiag_four 1 4 (by norm_num)]
    simp only [List.map_cons, List.map_nil, hpc2, hpcm2]
    rfl
  have hm2 : (↑(([((-2 : ℚ), (0 : ℚ)), (2, 0)]).map pairToC) : Multiset ℂ)
      = eigenvalueMultiset (symPerm [[0, 1], [4, 0]] [1, 0]) := by
    rw [hsym, eigenvalueMultiset_offdiag_four 4 1 (by norm_num)]
    simp only [List.map_cons, List.map_nil, hpc2, hpcm2]
    show (↑([(-2 : ℂ), 2]) : Multiset ℂ) = ↑([(2 : ℂ), -2])
    exact Multiset.coe_eq_coe.mpr (List.Perm.swap _ _ _)
  have heq := h [[0, 1], [4, 0]] [1, 0] (by decide) (by decide)
    (by norm_num [rowNormSq, List.nodup_cons])
    [((2 : ℚ), (0 : ℚ)), (-2, 0)] [((-2 : ℚ), (0 : ℚ)), (2, 0)] hm1 hm2
  have habs : pairAbs (-2, 0) = pairAbs (2, 0) := by
    unfold pairAbs
    norm_num
  have hkeys : ([((-2 : ℚ), (0 : ℚ)), (2, 0)]).map pairAbs
      = ([((2 : ℚ), (0 : ℚ)), (-2, 0)]).map pairAbs := by
    simp only [List.map_cons, List.map_nil]
    rw [habs]
  unfold get_eigenspectrum at heq
  rw [hkeys] at heq
  have hp2 : (argsortDesc (([((2 : ℚ), (0 : ℚ)), (-2, 0)]).map pairAbs)).Perm (List.range 2) := by
    have := argsortDesc_perm (([((2 : ℚ), (0 : ℚ)), (-2, 0)]).map pairAbs)
    simpa using this
  have hmem0 : (0 : ℕ) ∈ argsortDesc (([((2 : ℚ), (0 : ℚ)), (-2, 0)]).map pairAbs) :=
    hp2.mem_iff.mpr (by decide)
  obtain ⟨t, ht, hpt⟩ := List.mem_iff_getElem.mp hmem0
  have hval := congrArg (fun l => l.getD t ((0 : ℚ), (0 : ℚ))) heq
  simp only at hval
  rw [getD_map _ _ ht ((0 : ℚ), (0 : ℚ)) 0, getD_map _ _ ht ((0 : ℚ), (0 : ℚ)) 0,
    List.getD_eq_getElem _ _ ht, hpt] at hval
  simp only [List.getD_cons_zero, Prod.mk.injEq] at hval
  norm_num at hval

end MatrixDescriptor

